import Mathlib

/-!
Verification of the mcp-dap debug-session engine against its specification.

This file shallowly embeds the parts of the source that the verified
properties concern:

* `src/mcp_dap/dap/protocol.py` — DAP message framing (`encode_message`,
  `parse_content_length`, `decode_message`), together with models of the
  Python library functions they call: `json.dumps(…, separators=(",", ":"))`
  with its default `ensure_ascii=True` escaping, `json.loads`,
  `str.encode("utf-8")` / `bytes.decode("utf-8")`, `str.split`, `str.strip`,
  `str.lower` and `int(str)`.
* `src/mcp_dap/dap/transport.py` — the persistent read buffer discipline of
  `_read_until_separator` / `_read_exactly` / `receive`.
* `src/mcp_dap/dap/client.py` — sequence assignment, the pending-request
  map, `_handle_response` and the `finally` deregistration in `request`.
* `src/mcp_dap/session.py` — session state, the event handlers, the
  stop-signal discipline of the continue/step family, breakpoint storage,
  `disconnect`, and `SessionManager.create_session`.
* `src/mcp_dap/server.py` — `_stopped_result` (the rendering of a stop /
  termination outcome to the agent).

Modelling conventions: bytes are `List Nat` (each entry < 256 where it
matters), Python `str` is `String` / `List Char` restricted to Unicode
scalar values (Python's lone surrogates are not representable and never
arise from the code under study), and JSON numbers are restricted to the
integers actually exchanged by the code (floating point is out of scope).
Python `str` operations are modelled on the ASCII fragment the protocol
uses (e.g. `str.lower` as ASCII lowercasing, `str.strip` with the ASCII
whitespace set).
-/

/-! ## JSON values

Model of the Python values that `json.dumps` serializes and `json.loads`
produces in this code base: `None`, `bool`, `int`, `str`, `list`, `dict`
(string keys, insertion ordered).  Python dicts cannot carry duplicate
keys; the list-of-pairs representation is ordered like a Python dict. -/

inductive Json where
  | null
  | b (v : Bool)
  | i (v : Int)
  | s (v : String)
  | arr (elems : List Json)
  | obj (members : List (String × Json))
deriving Repr, BEq

/-! ## Decimal digits

Model of how Python prints a non-negative integer in decimal (used both by
`json.dumps` for `int` and by the f-string building the `Content-Length`
header).  Structural in a fuel argument so every use computes by kernel
reduction; `natToDec` supplies enough fuel for any input. -/

def digitChar (d : Nat) : Char := Char.ofNat (48 + d % 10)

def digitVal (c : Char) : Nat := c.toNat - 48

/-- Decimal digits of `n`, least significant first; `fuel` bounds recursion. -/
def natToDecRev (fuel n : Nat) : List Char :=
  match fuel with
  | 0 => []
  | fuel + 1 => if n < 10 then [digitChar n] else digitChar (n % 10) :: natToDecRev fuel (n / 10)

/-- Decimal digits of `n`, most significant first, as Python prints it. -/
def natToDec (n : Nat) : List Char := (natToDecRev (n + 1) n).reverse

/-- Characters of Python's `repr` of an `int`: optional minus, then digits. -/
def intToDec (v : Int) : List Char :=
  (if v < 0 then ['-'] else []) ++ natToDec v.natAbs

def isDigitCh (c : Char) : Bool := 48 ≤ c.toNat && c.toNat ≤ 57

/-! ## The `json.dumps` string escaper

Model of `json.encoder.py_encode_basestring_ascii`, the escaper in force
under the default `ensure_ascii=True`: `\` and `"` and the five named
control characters get two-character escapes, every other character
outside `0x20`–`0x7E` becomes `\uXXXX` (lowercase hex), with characters
above `0xFFFF` written as a UTF-16 surrogate pair of two `\u` escapes. -/

def hexDigitLower (d : Nat) : Char :=
  if d % 16 < 10 then Char.ofNat (48 + d % 16) else Char.ofNat (87 + d % 16)

/-- Four lowercase hex digits of `n % 0x10000`, as `"\u%04x" % n` prints. -/
def hex4 (n : Nat) : List Char :=
  [hexDigitLower (n / 4096), hexDigitLower (n / 256), hexDigitLower (n / 16), hexDigitLower n]

/-- Escape one character the way `json.dumps(…, ensure_ascii=True)` does. -/
def escapeChar (c : Char) : List Char :=
  if c = '\\' then ['\\', '\\']
  else if c = '"' then ['\\', '"']
  else if 32 ≤ c.toNat ∧ c.toNat ≤ 126 then [c]
  else if c = Char.ofNat 8 then ['\\', 'b']
  else if c = Char.ofNat 9 then ['\\', 't']
  else if c = Char.ofNat 10 then ['\\', 'n']
  else if c = Char.ofNat 12 then ['\\', 'f']
  else if c = Char.ofNat 13 then ['\\', 'r']
  else if c.toNat < 65536 then '\\' :: 'u' :: hex4 c.toNat
  else
    '\\' :: 'u' :: hex4 (55296 + (c.toNat - 65536) / 1024)
      ++ '\\' :: 'u' :: hex4 (56320 + (c.toNat - 65536) % 1024)

def escapeString (cs : List Char) : List Char := cs.flatMap escapeChar

/-- Serialization of a string literal: quotes around the escaped body. -/
def dumpString (v : String) : List Char := '"' :: (escapeString v.data ++ ['"'])

/-! ## The serializer

Model of `json.dumps(data, separators=(",", ":"))` as called by
`encode_message`: compact output, no whitespace anywhere. -/

mutual

def dumps : Json → List Char
  | .null => ['n', 'u', 'l', 'l']
  | .b true => ['t', 'r', 'u', 'e']
  | .b false => ['f', 'a', 'l', 's', 'e']
  | .i v => intToDec v
  | .s v => dumpString v
  | .arr elems => '[' :: (dumpElems elems ++ [']'])
  | .obj members => '{' :: (dumpMembers members ++ ['}'])

def dumpElems : List Json → List Char
  | [] => []
  | [x] => dumps x
  | x :: y :: rest => dumps x ++ ',' :: dumpElems (y :: rest)

def dumpMembers : List (String × Json) → List Char
  | [] => []
  | [(k, v)] => dumpString k ++ ':' :: dumps v
  | (k, v) :: m :: rest => dumpString k ++ ':' :: dumps v ++ ',' :: dumpMembers (m :: rest)

end

/-! ## The `json.loads` parser

Model of Python's JSON decoder on the value domain above.  Faithful to
`json/decoder.py` and `json/scanner.py`: whitespace is skipped exactly
where the scanner skips it, strings reject raw control characters
(`strict=True`), `\uXXXX` escapes are decoded with UTF-16 surrogate-pair
joining, and numbers follow `NUMBER_RE` (`-?(0|[1-9]\d*)` with optional
fraction/exponent).  A number with a fraction or exponent part would be a
Python float, which is outside this model's value domain, so the parser
returns `none` there; likewise a lone surrogate escape (which CPython
tolerates) has no Unicode scalar value and is rejected.  The recursion is
structural on a fuel argument; `loads` supplies fuel that the round-trip
theorems prove sufficient. -/

def isJsonWs (c : Char) : Bool := c = ' ' || c = Char.ofNat 9 || c = Char.ofNat 10 || c = Char.ofNat 13

def skipWs : List Char → List Char
  | [] => []
  | c :: rest => if isJsonWs c then skipWs rest else c :: rest

def hexVal (c : Char) : Option Nat :=
  if 48 ≤ c.toNat ∧ c.toNat ≤ 57 then some (c.toNat - 48)
  else if 97 ≤ c.toNat ∧ c.toNat ≤ 102 then some (c.toNat - 87)
  else if 65 ≤ c.toNat ∧ c.toNat ≤ 70 then some (c.toNat - 55)
  else none

def hexQuad (a b c d : Char) : Option Nat :=
  match hexVal a, hexVal b, hexVal c, hexVal d with
  | some va, some vb, some vc, some vd => some (((va * 16 + vb) * 16 + vc) * 16 + vd)
  | _, _, _, _ => none

/-- Decoding of the two-character escapes accepted by `py_scanstring`. -/
def shortUnescape : Char → Option Char
  | '"' => some '"'
  | '\\' => some '\\'
  | '/' => some '/'
  | 'b' => some (Char.ofNat 8)
  | 'f' => some (Char.ofNat 12)
  | 'n' => some (Char.ofNat 10)
  | 'r' => some (Char.ofNat 13)
  | 't' => some (Char.ofNat 9)
  | _ => none

/-- Scan a string body after the opening quote, as `py_scanstring` does with
`strict=True`; returns the decoded characters and the input past the
closing quote. -/
def parseStrBody : List Char → Option (List Char × List Char)
  | '"' :: rest => some ([], rest)
  | '\\' :: 'u' :: a :: b :: c :: d :: rest =>
    match hexQuad a b c d with
    | none => none
    | some n =>
      if n < 55296 ∨ 57344 ≤ n then
        (parseStrBody rest).map (fun p => (Char.ofNat n :: p.1, p.2))
      else if n < 56320 then
        match rest with
        | '\\' :: 'u' :: e :: f :: g :: h :: rest2 =>
          match hexQuad e f g h with
          | some m =>
            if 56320 ≤ m ∧ m < 57344 then
              (parseStrBody rest2).map
                (fun p => (Char.ofNat (65536 + (n - 55296) * 1024 + (m - 56320)) :: p.1, p.2))
            else none
          | none => none
        | _ => none
      else none
  | '\\' :: e :: rest =>
    match shortUnescape e with
    | some c => (parseStrBody rest).map (fun p => (c :: p.1, p.2))
    | none => none
  | c :: rest =>
    if c.toNat < 32 then none
    else (parseStrBody rest).map (fun p => (c :: p.1, p.2))
  | [] => none

def takeDigitsRun : List Char → List Char × List Char
  | [] => ([], [])
  | c :: rest =>
    if isDigitCh c then
      let p := takeDigitsRun rest
      (c :: p.1, p.2)
    else ([], c :: rest)

def decValue (ds : List Char) : Nat := ds.foldl (fun acc c => acc * 10 + digitVal c) 0

/-- Does a fraction or exponent part of `NUMBER_RE` match here?  If so the
scanner would produce a Python float, which is outside this model. -/
def floatFollows : List Char → Bool
  | '.' :: d :: _ => isDigitCh d
  | 'e' :: '+' :: d :: _ => isDigitCh d
  | 'e' :: '-' :: d :: _ => isDigitCh d
  | 'e' :: d :: _ => isDigitCh d
  | 'E' :: '+' :: d :: _ => isDigitCh d
  | 'E' :: '-' :: d :: _ => isDigitCh d
  | 'E' :: d :: _ => isDigitCh d
  | _ => false

/-- Digit part of an integer literal after the optional sign, per
`NUMBER_RE`: `0` alone, or a digit run without a leading zero. -/
def parseIntDigits (neg : Bool) : List Char → Option (Int × List Char)
  | [] => none
  | c :: rest =>
    if c = '0' then (if floatFollows rest then none else some (0, rest))
    else if isDigitCh c then
      let p := takeDigitsRun rest
      if floatFollows p.2 then none
      else
        some ((if neg then -(decValue (c :: p.1) : Int) else (decValue (c :: p.1) : Int)), p.2)
    else none

/-- Scan an integer literal at the head of the input, per `NUMBER_RE`:
optional minus, then `0` or a digit run without a leading zero. -/
def parseJsonInt (cs : List Char) : Option (Int × List Char) :=
  match cs with
  | [] => none
  | c :: rest => if c = '-' then parseIntDigits true rest else parseIntDigits false (c :: rest)

mutual

def parseValue : Nat → List Char → Option (Json × List Char)
  | 0, _ => none
  | fuel + 1, cs =>
    match cs with
    | 'n' :: 'u' :: 'l' :: 'l' :: r => some (.null, r)
    | 't' :: 'r' :: 'u' :: 'e' :: r => some (.b true, r)
    | 'f' :: 'a' :: 'l' :: 's' :: 'e' :: r => some (.b false, r)
    | '"' :: r => (parseStrBody r).map (fun p => (.s (String.mk p.1), p.2))
    | '[' :: r =>
      match skipWs r with
      | ']' :: r2 => some (.arr [], r2)
      | r2 => (parseElemsRest fuel r2).map (fun p => (.arr p.1, p.2))
    | '{' :: r =>
      match skipWs r with
      | '}' :: r2 => some (.obj [], r2)
      | r2 => (parseMembersRest fuel r2).map (fun p => (.obj p.1, p.2))
    | other => (parseJsonInt other).map (fun p => (.i p.1, p.2))

def parseElemsRest : Nat → List Char → Option (List Json × List Char)
  | 0, _ => none
  | fuel + 1, cs =>
    match parseValue fuel cs with
    | none => none
    | some (v, r) =>
      match skipWs r with
      | ',' :: r2 =>
        match parseElemsRest fuel (skipWs r2) with
        | some (vs, r3) => some (v :: vs, r3)
        | none => none
      | ']' :: r2 => some ([v], r2)
      | _ => none

def parseMembersRest : Nat → List Char → Option (List (String × Json) × List Char)
  | 0, _ => none
  | fuel + 1, cs =>
    match cs with
    | '"' :: r =>
      match parseStrBody r with
      | none => none
      | some (kcs, r1) =>
        match skipWs r1 with
        | ':' :: r2 =>
          match parseValue fuel (skipWs r2) with
          | none => none
          | some (v, r3) =>
            match skipWs r3 with
            | ',' :: r4 =>
              match parseMembersRest fuel (skipWs r4) with
              | some (ms, r5) => some ((String.mk kcs, v) :: ms, r5)
              | none => none
            | '}' :: r4 => some ([(String.mk kcs, v)], r4)
            | _ => none
        | _ => none
    | _ => none

end

/-- Model of `json.loads` on a character sequence: skip leading whitespace,
scan one value, require only whitespace to remain. -/
def loads (cs : List Char) : Option Json :=
  match parseValue (cs.length + 1) (skipWs cs) with
  | none => none
  | some (v, rest) => if skipWs rest = [] then some v else none

/-! ## UTF-8

Models of `str.encode("utf-8")` and `bytes.decode("utf-8")` (strict
errors): the standard 1–4-byte encoding, with the decoder rejecting
truncated sequences, stray continuation bytes, overlong forms, surrogates
and code points above `0x10FFFF`, as CPython's strict UTF-8 codec does. -/

def utf8EncodeChar (c : Char) : List Nat :=
  let n := c.toNat
  if n < 128 then [n]
  else if n < 2048 then [192 + n / 64, 128 + n % 64]
  else if n < 65536 then [224 + n / 4096, 128 + n / 64 % 64, 128 + n % 64]
  else [240 + n / 262144, 128 + n / 4096 % 64, 128 + n / 64 % 64, 128 + n % 64]

/-- Bytes of the UTF-8 encoding of a character sequence. -/
def strBytes (cs : List Char) : List Nat := cs.flatMap utf8EncodeChar

def isContByte (b : Nat) : Bool := 128 ≤ b && b ≤ 191

/-- Continuation bytes of a 2-byte sequence led by `b`: the decoded code
point and the remaining bytes, or `none` on an invalid continuation. -/
def utf8Tail2 (b : Nat) : List Nat → Option (Nat × List Nat)
  | b2 :: rest2 =>
    if isContByte b2 then some ((b - 192) * 64 + (b2 - 128), rest2) else none
  | [] => none

/-- Continuation bytes of a 3-byte sequence led by `b`, with the tightened
first-continuation ranges that exclude overlong forms and surrogates. -/
def utf8Tail3 (b : Nat) : List Nat → Option (Nat × List Nat)
  | b2 :: b3 :: rest2 =>
    if (if b = 224 then 160 ≤ b2 && b2 ≤ 191
        else if b = 237 then 128 ≤ b2 && b2 ≤ 159
        else isContByte b2) && isContByte b3 then
      some ((b - 224) * 4096 + (b2 - 128) * 64 + (b3 - 128), rest2)
    else none
  | _ => none

/-- Continuation bytes of a 4-byte sequence led by `b`, with the tightened
first-continuation ranges that exclude overlong forms and values above
`0x10FFFF`. -/
def utf8Tail4 (b : Nat) : List Nat → Option (Nat × List Nat)
  | b2 :: b3 :: b4 :: rest2 =>
    if (if b = 240 then 144 ≤ b2 && b2 ≤ 191
        else if b = 244 then 128 ≤ b2 && b2 ≤ 143
        else isContByte b2) && isContByte b3 && isContByte b4 then
      some ((b - 240) * 262144 + (b2 - 128) * 4096 + (b3 - 128) * 64 + (b4 - 128), rest2)
    else none
  | _ => none

/-- Fueled decoding loop; every step consumes at least one byte, so fuel
equal to the byte count always suffices. -/
def utf8DecodeAux : Nat → List Nat → Option (List Char)
  | _, [] => some []
  | 0, _ :: _ => none
  | fuel + 1, b :: rest =>
    if b < 128 then (utf8DecodeAux fuel rest).map (Char.ofNat b :: ·)
    else if 194 ≤ b ∧ b ≤ 223 then
      match utf8Tail2 b rest with
      | some (n, rest2) => (utf8DecodeAux fuel rest2).map (Char.ofNat n :: ·)
      | none => none
    else if 224 ≤ b ∧ b ≤ 239 then
      match utf8Tail3 b rest with
      | some (n, rest2) => (utf8DecodeAux fuel rest2).map (Char.ofNat n :: ·)
      | none => none
    else if 240 ≤ b ∧ b ≤ 244 then
      match utf8Tail4 b rest with
      | some (n, rest2) => (utf8DecodeAux fuel rest2).map (Char.ofNat n :: ·)
      | none => none
    else none

/-- Model of `bytes.decode("utf-8")`: `none` where CPython raises
`UnicodeDecodeError`. -/
def utf8DecodeBytes (bs : List Nat) : Option (List Char) := utf8DecodeAux bs.length bs

/-! ## Python string helpers used by `parse_content_length`

ASCII models of `str.split("\r\n")`, `str.lower`, `str.strip`,
`str.split(":", 1)[1]` and `int(str)` (sign, ASCII digits, single
underscores between digits, surrounding whitespace). -/

def lowerAscii (c : Char) : Char :=
  if 65 ≤ c.toNat ∧ c.toNat ≤ 90 then Char.ofNat (c.toNat + 32) else c

/-- Model of `str.split("\r\n")`. -/
def splitCRLF : List Char → List (List Char)
  | [] => [[]]
  | [c] => [[c]]
  | c1 :: c2 :: rest =>
    if c1 = Char.ofNat 13 ∧ c2 = Char.ofNat 10 then [] :: splitCRLF rest
    else
      match splitCRLF (c2 :: rest) with
      | [] => [[c1]]
      | line :: lines => (c1 :: line) :: lines

def isPySpace (c : Char) : Bool :=
  c.toNat = 32 || (9 ≤ c.toNat && c.toNat ≤ 13) || (28 ≤ c.toNat && c.toNat ≤ 31)

/-- Model of `str.strip()` on the ASCII whitespace set. -/
def pyStrip (cs : List Char) : List Char :=
  ((cs.dropWhile isPySpace).reverse.dropWhile isPySpace).reverse

def pyDigitsUAux (acc : Nat) : List Char → Option Nat
  | [] => some acc
  | c :: rest =>
    if c = '_' then
      match rest with
      | c2 :: rest2 => if isDigitCh c2 then pyDigitsUAux (acc * 10 + digitVal c2) rest2 else none
      | [] => none
    else if isDigitCh c then pyDigitsUAux (acc * 10 + digitVal c) rest
    else none

/-- Digit part of Python's `int(str)` grammar: a nonempty digit run with
single underscores allowed between digits. -/
def pyDigitsU : List Char → Option Nat
  | c :: rest => if isDigitCh c then pyDigitsUAux (digitVal c) rest else none
  | [] => none

/-- Model of `int(str)`: optional surrounding whitespace, optional sign,
then digits; `none` where Python raises `ValueError`. -/
def pyIntOfStr (cs : List Char) : Option Int :=
  match pyStrip cs with
  | [] => none
  | c :: rest =>
    if c = '+' then (pyDigitsU rest).map Int.ofNat
    else if c = '-' then (pyDigitsU rest).map (fun n => -(n : Int))
    else (pyDigitsU (c :: rest)).map Int.ofNat

/-- Does `pat` occur at the head of `l`? -/
def leadEq [DecidableEq α] : List α → List α → Bool
  | [], _ => true
  | _ :: _, [] => false
  | a :: as, b :: bs => if a = b then leadEq as bs else false

/-- Is this a `Content-Length` header line?  Models
`line.lower().startswith("content-length:")`. -/
def isCLLine (line : List Char) : Bool :=
  leadEq ("content-length:".data) (line.map lowerAscii)

/-- Model of `line.split(":", 1)[1]`: everything after the first colon.
Under `isCLLine` a colon is always present; on a colon-free line Python
would raise `IndexError`, a case unreachable from `parse_content_length`. -/
def afterFirstColon : List Char → List Char
  | [] => []
  | c :: rest => if c = ':' then rest else afterFirstColon rest

/-! ## `protocol.py` -/

/-- The framing separator `b"\r\n\r\n"` as bytes. -/
def headerSeparator : List Nat := [13, 10, 13, 10]

/-- The header line `encode_message` writes for a body of `n` bytes,
before the separator. -/
def headerChars (n : Nat) : List Char := "Content-Length: ".data ++ natToDec n

/-- Model of `protocol.encode_message`: compact JSON body, UTF-8 encoded,
prefixed by a `Content-Length` header and the blank-line separator. -/
def encode_message (data : List (String × Json)) : List Nat :=
  let content := strBytes (dumps (.obj data))
  strBytes ("Content-Length: ".data ++ natToDec content.length
      ++ [Char.ofNat 13, Char.ofNat 10, Char.ofNat 13, Char.ofNat 10])
    ++ content

/-- Model of `protocol.parse_content_length`: decode the header bytes as
UTF-8, split on CRLF, take the first line that case-insensitively starts
with `content-length:`, and convert everything after its first colon with
`int(...)` after stripping.  `none` models raising `DAPProtocolError`. -/
def parse_content_length (header_data : List Nat) : Option Int :=
  match utf8DecodeBytes header_data with
  | none => none
  | some chars =>
    match (splitCRLF chars).find? isCLLine with
    | none => none
    | some line => pyIntOfStr (pyStrip (afterFirstColon line))

/-- Model of `protocol.decode_message`: decode as UTF-8, parse as JSON,
require a JSON object.  `none` models raising `DAPProtocolError`. -/
def decode_message (content : List Nat) : Option (List (String × Json)) :=
  match utf8DecodeBytes content with
  | none => none
  | some chars =>
    match loads chars with
    | some (.obj members) => some members
    | _ => none

/-! ## `transport.py` read-buffer discipline

The transports keep a persistent `_read_buffer` across `receive` calls and
append chunks obtained from the underlying stream.  The stream is modelled
as the list of chunks its successive `receive(4096)` calls return; an
empty chunk is end-of-stream, on which the code raises `DAPProtocolError`
(`none` here).  `SocketTransport` and `StdioTransport` share this logic
verbatim. -/

/-- Index of the first occurrence of `pat` in `l`, as `bytes.index` finds
it (`bytes.__contains__` agrees on presence). -/
def findSeq (pat : List Nat) : List Nat → Option Nat
  | [] => if pat = [] then some 0 else none
  | b :: rest =>
    if leadEq pat (b :: rest) then some 0 else (findSeq pat rest).map (· + 1)

/-- Model of `_read_until_separator`: grow the buffer until `\r\n\r\n`
occurs, return the bytes before its first occurrence and keep everything
after it, with the unconsumed chunks. -/
def read_until_separator (buffer : List Nat) (chunks : List (List Nat)) :
    Option (List Nat × List Nat × List (List Nat)) :=
  match findSeq headerSeparator buffer, chunks with
  | some i, _ => some (buffer.take i, buffer.drop (i + headerSeparator.length), chunks)
  | none, [] => none
  | none, c :: cs => if c = [] then none else read_until_separator (buffer ++ c) cs

/-- Model of `_read_exactly`: grow the buffer to at least `n` bytes, return
the first `n` and keep the rest. -/
def read_exactly (n : Nat) (buffer : List Nat) (chunks : List (List Nat)) :
    Option (List Nat × List Nat × List (List Nat)) :=
  if n ≤ buffer.length then some (buffer.take n, buffer.drop n, chunks)
  else
    match chunks with
    | [] => none
    | c :: cs => if c = [] then none else read_exactly n (buffer ++ c) cs

/-- Model of the transports' `receive`: header up to the separator, then
`Content-Length`, then exactly that many body bytes, then JSON decoding.
The parsed length is non-negative in every reachable frame; `Int.toNat`
models its use as a byte count. -/
def transportReceive (buffer : List Nat) (chunks : List (List Nat)) :
    Option (List (String × Json) × List Nat × List (List Nat)) :=
  match read_until_separator buffer chunks with
  | none => none
  | some (header, buf1, ch1) =>
    match parse_content_length header with
    | none => none
    | some n =>
      match read_exactly n.toNat buf1 ch1 with
      | none => none
      | some (content, buf2, ch2) =>
        (decode_message content).map (fun m => (m, buf2, ch2))

/-! ## `client.py` request correlation

`DAPClient` assigns `seq = self._seq + 1` before each send, registers a
one-shot future under that key in `_pending_requests`, and
`_handle_response` fulfils the future registered under the response's
`request_seq` (skipping absent keys and already-done futures).  `request`
pops its key in a `finally`, whatever the outcome.  The pending map is
modelled as an insertion-ordered association list with unique keys, like a
Python dict; a future is `none` while unresolved. -/

structure DAPResponse where
  request_seq : Nat
  success : Bool
  message : Option String := none
  body : Option (List (String × Json)) := none
deriving Repr

structure ClientSt where
  seq : Nat
  pending : List (Nat × Option DAPResponse)
deriving Repr

/-- A freshly connected client: next-sequence counter at `n` (0 in the
source constructor), no pending requests. -/
def mkClient (n : Nat) : ClientSt := ⟨n, []⟩

/-- The sequence-assignment and waiter-registration half of `request`
(everything before the transport send). -/
def issueRequest (c : ClientSt) : ClientSt × Nat :=
  (⟨c.seq + 1, c.pending ++ [(c.seq + 1, none)]⟩, c.seq + 1)

/-- Issue `k` requests back to back. -/
def issueMany : ClientSt → Nat → ClientSt
  | c, 0 => c
  | c, k + 1 => issueMany (issueRequest c).1 k

/-- Fill the waiter stored under `r.request_seq`, if present and not yet
done, with `r`; the body of `_handle_response`. -/
def fillWaiter : List (Nat × Option DAPResponse) → DAPResponse → List (Nat × Option DAPResponse)
  | [], _ => []
  | (k, v) :: rest, r =>
    if k = r.request_seq then
      (k, match v with | none => some r | some r0 => some r0) :: rest
    else (k, v) :: fillWaiter rest r

def handle_response (c : ClientSt) (r : DAPResponse) : ClientSt :=
  ⟨c.seq, fillWaiter c.pending r⟩

/-- Deliver a list of responses in order through `_handle_response`. -/
def applyResponses (c : ClientSt) (rs : List DAPResponse) : ClientSt :=
  rs.foldl handle_response c

def lookupPending : List (Nat × Option DAPResponse) → Nat → Option (Option DAPResponse)
  | [], _ => none
  | (k, v) :: rest, s => if k = s then some v else lookupPending rest s

/-- Model of `self._pending_requests.pop(seq, None)`. -/
def removePending : List (Nat × Option DAPResponse) → Nat → List (Nat × Option DAPResponse)
  | [], _ => []
  | (k, v) :: rest, s => if k = s then rest else (k, v) :: removePending rest s

inductive RequestOutcome where
  | ok (resp : DAPResponse)
  | dapError (message : Option String)
  | timeout
deriving Repr

/-- The completion half of `request`: a resolved successful future returns
the response, a resolved `success=false` future raises `DAPError`, an
unresolved future means the 30 s wait raised `DAPTimeoutError`; the
`finally` block pops the waiter in every case. -/
def finishRequest (c : ClientSt) (s : Nat) : ClientSt × RequestOutcome :=
  (⟨c.seq, removePending c.pending s⟩,
    match lookupPending c.pending s with
    | some (some r) => if r.success then .ok r else .dapError r.message
    | _ => .timeout)

/-! ## `session.py` -/

inductive SessionState where
  | initializing
  | running
  | stopped
  | terminated
deriving Repr, DecidableEq

def sessionStateValue : SessionState → String
  | .initializing => "initializing"
  | .running => "running"
  | .stopped => "stopped"
  | .terminated => "terminated"

inductive StopReason where
  | breakpoint
  | step
  | exception
  | pause
  | entry
  | goto
  | functionBreakpoint
  | dataBreakpoint
deriving Repr, DecidableEq

def stopReasonValue : StopReason → String
  | .breakpoint => "breakpoint"
  | .step => "step"
  | .exception => "exception"
  | .pause => "pause"
  | .entry => "entry"
  | .goto => "goto"
  | .functionBreakpoint => "function breakpoint"
  | .dataBreakpoint => "data breakpoint"

/-- Model of the `StopReason(reason_str)` constructor call: `some` on a
member value, `none` where Python raises `ValueError`. -/
def stopReasonOfString (s : String) : Option StopReason :=
  if s = "breakpoint" then some .breakpoint
  else if s = "step" then some .step
  else if s = "exception" then some .exception
  else if s = "pause" then some .pause
  else if s = "entry" then some .entry
  else if s = "goto" then some .goto
  else if s = "function breakpoint" then some .functionBreakpoint
  else if s = "data breakpoint" then some .dataBreakpoint
  else none

/-- Model of `messages.DAPEvent` restricted to what the session handlers
read: the event name, `body.get("threadId")` and `body.get("reason")`. -/
structure DAPEvent where
  event : String
  threadId : Option Int := none
  reason : Option String := none
deriving Repr, DecidableEq

structure StoppedEvent where
  reason : StopReason
  thread_id : Int
deriving Repr, DecidableEq

structure Breakpoint where
  id : Option Int := none
  verified : Bool
  message : Option String := none
  source_path : Option String := none
  line : Option Int := none
  column : Option Int := none
  end_line : Option Int := none
  end_column : Option Int := none
deriving Repr, DecidableEq

/-- The session state the claims concern: `_state`, `_stopped_thread_id`,
`_stop_reason`, whether `_stop_event` is set, `_breakpoints`, and the
pending-event queue.  The output buffer and callback list are not read by
any verified property and are omitted. -/
structure SessionSt where
  state : SessionState
  stoppedThreadId : Option Int
  stopReason : Option StopReason
  stopSignal : Bool
  breakpoints : List (String × List Breakpoint)
  pendingEvents : List DAPEvent
deriving Repr

def handle_stopped (ev : DAPEvent) (s : SessionSt) : SessionSt :=
  { s with
    state := .stopped
    stoppedThreadId := ev.threadId
    stopReason := some ((stopReasonOfString (ev.reason.getD "unknown")).getD .breakpoint)
    stopSignal := true }

def handle_continued (s : SessionSt) : SessionSt :=
  { s with state := .running, stoppedThreadId := none, stopReason := none, stopSignal := false }

def handle_terminated (s : SessionSt) : SessionSt :=
  { s with state := .terminated, stopSignal := true }

/-- Model of `_handle_event`: append to the pending queue, then dispatch on
the event name (`output` touches only the omitted output buffer and
`thread` is a no-op, so both leave the modelled fields alone). -/
def handle_event (ev : DAPEvent) (s : SessionSt) : SessionSt :=
  let s1 := { s with pendingEvents := s.pendingEvents ++ [ev] }
  if ev.event = "stopped" then handle_stopped ev s1
  else if ev.event = "continued" then handle_continued s1
  else if ev.event = "terminated" then handle_terminated s1
  else s1

/-- Python `a or b` on an optional integer: `None` and `0` are falsy. -/
def orTruthy (a : Option Int) (b : Int) : Int :=
  match a with
  | some t => if t = 0 then b else t
  | none => b

/-- Thread chosen by `continue_execution`/`step_over`/`step_into`/`step_out`:
`thread_id or self._stopped_thread_id or 1`. -/
def continueTid (thread_id stopped : Option Int) : Int :=
  orTruthy thread_id (orTruthy stopped 1)

/-- Thread chosen by `pause`: `thread_id or 1`. -/
def pauseTid (thread_id : Option Int) : Int :=
  orTruthy thread_id 1

/-- The record `_wait_for_stop` builds once the signal fires: a Stopped
record when `_stopped_thread_id and _stop_reason` is truthy, else `None`. -/
def stopRecordOf (s : SessionSt) : Option StoppedEvent :=
  match s.stoppedThreadId, s.stopReason with
  | some t, some r => if t = 0 then none else some ⟨r, t⟩
  | _, _ => none

inductive WaitResult where
  | posted (rec : Option StoppedEvent)
  | timedOut
deriving Repr, DecidableEq

/-- Model of `_wait_for_stop` evaluated at the moment the wait completes:
if the stop signal is set the wait returns immediately with the record;
otherwise the 300 s timeout elapses and `None` is returned. -/
def wait_for_stop (s : SessionSt) : WaitResult :=
  if s.stopSignal then .posted (stopRecordOf s) else .timedOut

/-- The four commands that clear the stop signal and then wait. -/
inductive StepOp where
  | continueExec
  | stepOver
  | stepInto
  | stepOut
deriving Repr, DecidableEq

/-- Session-state mutations each command performs before issuing its DAP
request: all four clear `_stop_event` and set RUNNING;
`continue_execution` additionally clears the stopped-thread fields. -/
def opClear : StepOp → SessionSt → SessionSt
  | .continueExec, s =>
    { s with stopSignal := false, state := .running, stoppedThreadId := none, stopReason := none }
  | _, s => { s with stopSignal := false, state := .running }

/-- Sending the DAP request (`client.continue_execution/next/step_in/step_out`)
mutates only client state, never the session fields. -/
def dapSendEffect : SessionSt → SessionSt := id

/-- Handling the DAP response resolves a client future; session fields are
untouched. -/
def dapResponseEffect : SessionSt → SessionSt := id

/-- The three points after the clear at which the receive task can dispatch
the adapter's `stopped` event relative to the command's own suspension
points: before the DAP request is sent, between send and response, or
after the response (equivalently, while the command already awaits the
stop signal). -/
inductive StopSchedule where
  | beforeSend
  | betweenSendAndResponse
  | afterResponse
deriving Repr, DecidableEq

/-- One cooperative schedule of `step_over(wait=True)` and friends: the
command's clear-then-send-then-await-response sequence with the adapter's
event dispatched at the scheduled point after the clear. -/
def stepRun (op : StepOp) (ev : DAPEvent) : StopSchedule → SessionSt → SessionSt
  | .beforeSend, s => dapResponseEffect (dapSendEffect (handle_event ev (opClear op s)))
  | .betweenSendAndResponse, s => dapResponseEffect (handle_event ev (dapSendEffect (opClear op s)))
  | .afterResponse, s => handle_event ev (dapResponseEffect (dapSendEffect (opClear op s)))

/-! ## Breakpoint bookkeeping -/

/-- One entry of the adapter's `setBreakpoints` reply, with the fields
`session.set_breakpoints` reads via `bp.get(...)`. -/
structure BpReply where
  id : Option Int := none
  verified : Option Bool := none
  message : Option String := none
  line : Option Int := none
  column : Option Int := none
  endLine : Option Int := none
  endColumn : Option Int := none
deriving Repr, DecidableEq

/-- The `Breakpoint(...)` conversion inside `session.set_breakpoints`. -/
def convertBp (source_path : String) (bp : BpReply) : Breakpoint :=
  { id := bp.id
    verified := bp.verified.getD false
    message := bp.message
    source_path := some source_path
    line := bp.line
    column := bp.column
    end_line := bp.endLine
    end_column := bp.endColumn }

/-- The adapter's response to one `setBreakpoints` request, as
`DAPClient.set_breakpoints` consumes it: `none` for a missing body or
missing `breakpoints` key (both default to `[]`). -/
structure SetBpResponse where
  success : Bool
  message : Option String := none
  breakpoints : Option (List BpReply) := none
deriving Repr, DecidableEq

/-- Model of `DAPClient.set_breakpoints`: `request` raises `DAPError` on a
`success=false` response, else the reply's `breakpoints` list (default
empty). -/
def clientSetBreakpoints (resp : SetBpResponse) : Except (Option String) (List BpReply) :=
  if resp.success then .ok (resp.breakpoints.getD []) else .error resp.message

/-- Python dict assignment `m[k] = v` on the association-list model. -/
def setAssoc (m : List (String × List Breakpoint)) (k : String) (v : List Breakpoint) :
    List (String × List Breakpoint) :=
  match m with
  | [] => [(k, v)]
  | (k0, v0) :: rest => if k0 = k then (k, v) :: rest else (k0, v0) :: setAssoc rest k v

def getAssoc (m : List (String × List Breakpoint)) (k : String) : Option (List Breakpoint) :=
  match m with
  | [] => none
  | (k0, v0) :: rest => if k0 = k then some v0 else getAssoc rest k

/-- Model of `session.set_breakpoints`: issue the request (the spec list
`bp_specs` travels only into the request), convert the adapter's reply,
store it under the source path, return it. -/
def session_set_breakpoints (s : SessionSt) (source_path : String) (bp_specs : List Json)
    (resp : SetBpResponse) : Except (Option String) (SessionSt × List Breakpoint) :=
  match clientSetBreakpoints resp with
  | .error e => .error e
  | .ok result =>
    let bps := result.map (convertBp source_path)
    .ok ({ s with breakpoints := setAssoc s.breakpoints source_path bps }, bps)

/-! ## Session disconnect and manager creation -/

/-- The joint session/transport state `DebugSession.disconnect` touches:
the session `_state` and whether the transport is connected (`_stdin` /
`_writer` non-null and `_connected`). -/
structure ConnSt where
  sessState : SessionState
  transportConnected : Bool
deriving Repr, DecidableEq

inductive DisconnectErr where
  | connectionError
  | dapError
deriving Repr, DecidableEq

/-- Model of `DebugSession.disconnect`: set `_state = TERMINATED`, then
`client.disconnect_debuggee` issues a `disconnect` request, whose
`transport.send` raises `DAPConnectionError` when the transport is no
longer connected; `respSuccess` oracles the adapter's reply; on success
`client.disconnect` tears the transport down. -/
def session_disconnect (respSuccess : Bool) (c : ConnSt) : Except DisconnectErr ConnSt :=
  let c1 : ConnSt := { c with sessState := .terminated }
  if ¬ c.transportConnected then .error .connectionError
  else if ¬ respSuccess then .error .dapError
  else .ok { c1 with transportConnected := false }

inductive CreateErr where
  | adapterNotFound
  | sessionExists
  | connectionError
  | initializeError
deriving Repr, DecidableEq

structure CreateResult where
  registry : List String
  transportConnected : Bool
  outcome : Except CreateErr Unit
deriving Repr

/-- Model of `SessionManager.create_session` over the session registry and
the new transport's connection flag.  `connectOk` oracles
`client.connect()` (transport spawn/connect), `initOk` oracles
`session.initialize()`.  The function mirrors the source control flow: no
`try`/`finally` surrounds the connect/initialize steps, and the registry
insertion happens only after `initialize` returns. -/
def create_session (registry : List String) (adapterKnown : Bool) (sid : String)
    (connectOk initOk : Bool) : CreateResult :=
  if ¬ adapterKnown then ⟨registry, false, .error .adapterNotFound⟩
  else if sid ∈ registry then ⟨registry, false, .error .sessionExists⟩
  else if ¬ connectOk then ⟨registry, false, .error .connectionError⟩
  else if ¬ initOk then ⟨registry, true, .error .initializeError⟩
  else ⟨registry ++ [sid], true, .ok ()⟩

/-! ## `server.py` rendering of a stop outcome -/

/-- The dict `_stopped_result` builds, with key presence as `Option` /
flags. -/
structure StoppedResultMsg where
  state : String
  terminated : Bool := false
  reason : Option String := none
  thread_id : Option Int := none
  timeout : Bool := false
deriving Repr, DecidableEq

/-- Model of `MCPDAPServer._stopped_result`. -/
def stopped_result (state : SessionState) (stopped : Option StoppedEvent) : StoppedResultMsg :=
  if state = .terminated then
    { state := sessionStateValue state, terminated := true }
  else
    match stopped with
    | some ev =>
      { state := sessionStateValue state
        reason := some (stopReasonValue ev.reason)
        thread_id := some ev.thread_id }
    | none => { state := sessionStateValue state, timeout := true }

/-! ## General lemmas -/

theorem getAssoc_setAssoc (m : List (String × List Breakpoint)) (k : String)
    (v : List Breakpoint) : getAssoc (setAssoc m k v) k = some v := by
  induction m with
  | nil => simp [setAssoc, getAssoc]
  | cons hd rest ih =>
    obtain ⟨k0, v0⟩ := hd
    by_cases hk : k0 = k
    · simp [setAssoc, getAssoc, hk]
    · simp [setAssoc, getAssoc, hk, ih]

/-! ## C10: thread selection is by truthiness, not presence -/

/-- C10.  In `continue_execution`, `step_over`, `step_into`, `step_out` and
`pause`, the fallback `thread_id or self._stopped_thread_id or 1` (and
`thread_id or 1` for `pause`) treats an explicit `thread_id=0` exactly
like an omitted one, and the thread id sent in the DAP request is never 0. -/
theorem thread_selection_by_truthiness (explicit stopped : Option Int) :
    continueTid (some 0) stopped = continueTid none stopped ∧
    pauseTid (some 0) = pauseTid none ∧
    continueTid explicit stopped ≠ 0 ∧
    pauseTid explicit ≠ 0 := by
  refine ⟨by simp [continueTid, orTruthy], by simp [pauseTid, orTruthy], ?_, ?_⟩
  · cases explicit with
    | none =>
      cases stopped with
      | none => simp [continueTid, orTruthy]
      | some u =>
        by_cases hu : u = 0 <;> simp [continueTid, orTruthy, hu]
    | some t =>
      by_cases ht : t = 0
      · cases stopped with
        | none => simp [continueTid, orTruthy, ht]
        | some u => by_cases hu : u = 0 <;> simp [continueTid, orTruthy, ht, hu]
      · simp [continueTid, orTruthy, ht]
  · cases explicit with
    | none => simp [pauseTid, orTruthy]
    | some t => by_cases ht : t = 0 <;> simp [pauseTid, orTruthy, ht]

/-! ## C8: a terminated event releases every stop waiter -/

/-- C8.  Handling a `terminated` event moves the session to TERMINATED and
sets the stop signal, so an in-flight `_wait_for_stop` returns at once
(never times out) and the result the server renders for the waiting
continue/step call carries `terminated: true` and no timeout marker. -/
theorem terminated_releases_stop_waiters (s : SessionSt) (ev : DAPEvent)
    (hev : ev.event = "terminated") :
    (handle_event ev s).state = .terminated ∧
    (handle_event ev s).stopSignal = true ∧
    wait_for_stop (handle_event ev s) = .posted (stopRecordOf (handle_event ev s)) ∧
    (stopped_result (handle_event ev s).state (stopRecordOf (handle_event ev s))).terminated
      = true ∧
    (stopped_result (handle_event ev s).state (stopRecordOf (handle_event ev s))).timeout
      = false := by
  simp [handle_event, hev, handle_terminated, wait_for_stop, stopped_result]

/-- Witness for C8 at a concrete running session and a literal `terminated`
event. -/
theorem terminated_releases_stop_waiters_witness :
    (DAPEvent.mk "terminated" none none).event = "terminated" ∧
    (handle_event (DAPEvent.mk "terminated" none none)
        (SessionSt.mk .running none none false [] [])).state = .terminated ∧
    (handle_event (DAPEvent.mk "terminated" none none)
        (SessionSt.mk .running none none false [] [])).stopSignal = true := by
  have h := terminated_releases_stop_waiters
    (SessionSt.mk .running none none false [] []) (DAPEvent.mk "terminated" none none) rfl
  exact ⟨rfl, h.1, h.2.1⟩

/-! ## C1: stop signaling is race-free -/

/-- C1.  Every command that waits for a stop clears the stop signal before
issuing its DAP request, so for each of the three schedules that dispatch
the adapter's `stopped` event after the clear — before the request is
sent, between send and response, or after the response — the wait returns
the Stopped record carrying that event's reason and thread id, and the
session ends in the STOPPED state. -/
theorem stop_signaling_race_free (op : StepOp) (i : StopSchedule) (s0 : SessionSt)
    (ev : DAPEvent) (t : Int) (rs : String) (r : StopReason)
    (hev : ev.event = "stopped") (htid : ev.threadId = some t) (ht : t ≠ 0)
    (hrs : ev.reason = some rs) (hr : stopReasonOfString rs = some r) :
    wait_for_stop (stepRun op ev i s0) = .posted (some ⟨r, t⟩) ∧
    (stepRun op ev i s0).state = .stopped := by
  cases i <;> cases op <;>
    simp [stepRun, dapSendEffect, dapResponseEffect, opClear, handle_event, hev,
      handle_stopped, wait_for_stop, stopRecordOf, htid, hrs, hr, ht]

/-- Witness for C1: a `stopped{reason:"step", threadId:1}` event dispatched
between the `next` request and its response, during `step_over`. -/
theorem stop_signaling_race_free_witness :
    (DAPEvent.mk "stopped" (some 1) (some "step")).threadId = some 1 ∧
    wait_for_stop (stepRun .stepOver (DAPEvent.mk "stopped" (some 1) (some "step"))
        .betweenSendAndResponse
        (SessionSt.mk .stopped (some 1) (some .breakpoint) false [] []))
      = .posted (some ⟨.step, 1⟩) ∧
    (stepRun .stepOver (DAPEvent.mk "stopped" (some 1) (some "step"))
        .betweenSendAndResponse
        (SessionSt.mk .stopped (some 1) (some .breakpoint) false [] [])).state = .stopped := by
  have h := stop_signaling_race_free .stepOver .betweenSendAndResponse
    (SessionSt.mk .stopped (some 1) (some .breakpoint) false [] [])
    (DAPEvent.mk "stopped" (some 1) (some "step")) 1 "step" .step
    rfl rfl (by decide) rfl rfl
  exact ⟨rfl, h.1, h.2⟩

/-! ## C5: breakpoint replacement, not merge -/

/-- C5.  After each successful `set_breakpoints(p, specs)` the session's
breakpoint map at `p` equals exactly the adapter's reply to that call
(converted, with `source_path` set), independent of the requested spec
list and of any earlier entry; in particular after two successive calls
for `p` the map holds the reply to the second call only. -/
theorem breakpoint_replacement (s : SessionSt) (p : String) (specs1 specs2 : List Json)
    (resp1 resp2 : SetBpResponse) (h1 : resp1.success = true) (h2 : resp2.success = true) :
    ∃ s1 bps1 s2 bps2,
      session_set_breakpoints s p specs1 resp1 = .ok (s1, bps1) ∧
      session_set_breakpoints s1 p specs2 resp2 = .ok (s2, bps2) ∧
      bps1 = (resp1.breakpoints.getD []).map (convertBp p) ∧
      getAssoc s1.breakpoints p = some bps1 ∧
      bps2 = (resp2.breakpoints.getD []).map (convertBp p) ∧
      getAssoc s2.breakpoints p = some bps2 := by
  have e1 : session_set_breakpoints s p specs1 resp1 =
      .ok ({ s with breakpoints := (setAssoc s.breakpoints p
              ((resp1.breakpoints.getD []).map (convertBp p))) },
        (resp1.breakpoints.getD []).map (convertBp p)) := by
    simp [session_set_breakpoints, clientSetBreakpoints, h1]
  have e2 : session_set_breakpoints
      { s with breakpoints := (setAssoc s.breakpoints p
          ((resp1.breakpoints.getD []).map (convertBp p))) } p specs2 resp2 =
      .ok ({ s with breakpoints := (setAssoc
              (setAssoc s.breakpoints p ((resp1.breakpoints.getD []).map (convertBp p))) p
              ((resp2.breakpoints.getD []).map (convertBp p))) },
        (resp2.breakpoints.getD []).map (convertBp p)) := by
    simp [session_set_breakpoints, clientSetBreakpoints, h2]
  exact ⟨_, _, _, _, e1, e2, rfl, getAssoc_setAssoc .., rfl, getAssoc_setAssoc ..⟩

/-- Witness for C5: two calls for the same path; the adapter verifies two
breakpoints in the first reply and one in the second. -/
theorem breakpoint_replacement_witness :
    (SetBpResponse.mk true none (some [⟨some 1, some true, none, some 10, none, none, none⟩,
        ⟨some 2, some true, none, some 20, none, none, none⟩])).success = true ∧
    ∃ s1 bps1 s2 bps2,
      session_set_breakpoints (SessionSt.mk .stopped none none false [] []) "/a.py"
          [Json.obj [("line", .i 10)], Json.obj [("line", .i 20)]]
          (SetBpResponse.mk true none (some [⟨some 1, some true, none, some 10, none, none, none⟩,
            ⟨some 2, some true, none, some 20, none, none, none⟩])) = .ok (s1, bps1) ∧
      session_set_breakpoints s1 "/a.py" [Json.obj [("line", .i 30)]]
          (SetBpResponse.mk true none (some [⟨some 3, some true, none, some 30, none, none, none⟩]))
        = .ok (s2, bps2) ∧
      bps1 = [convertBp "/a.py" ⟨some 1, some true, none, some 10, none, none, none⟩,
        convertBp "/a.py" ⟨some 2, some true, none, some 20, none, none, none⟩] ∧
      getAssoc s1.breakpoints "/a.py" = some bps1 ∧
      bps2 = [convertBp "/a.py" ⟨some 3, some true, none, some 30, none, none, none⟩] ∧
      getAssoc s2.breakpoints "/a.py" = some bps2 :=
  ⟨rfl, breakpoint_replacement (SessionSt.mk .stopped none none false [] []) "/a.py"
    [Json.obj [("line", .i 10)], Json.obj [("line", .i 20)]] [Json.obj [("line", .i 30)]]
    (SetBpResponse.mk true none (some [⟨some 1, some true, none, some 10, none, none, none⟩,
      ⟨some 2, some true, none, some 20, none, none, none⟩]))
    (SetBpResponse.mk true none (some [⟨some 3, some true, none, some 30, none, none, none⟩]))
    rfl rfl⟩

/-! ## C6: session disconnect is not idempotent (code bug) -/

/-- C6, evaluated at the failing input.  A first `disconnect` on a
connected session succeeds and tears the transport down; the second
`disconnect` on the now-TERMINATED session reaches `transport.send` with a
disconnected transport and raises `DAPConnectionError`, contradicting the
documented no-op idempotence. -/
theorem disconnect_second_call_raises :
    session_disconnect true ⟨SessionState.stopped, true⟩
      = .ok ⟨SessionState.terminated, false⟩ ∧
    session_disconnect true ⟨SessionState.terminated, false⟩
      = .error .connectionError :=
  ⟨rfl, rfl⟩

/-! ## C7: create_session failure atomicity (code bug: transport leak) -/

/-- C7, evaluated at the failing input.  When `session.initialize()` fails
after a successful connect, `create_session` raises and the registry is
untouched (the half-built session is unobservable), but — having no
`try`/`finally` — it leaves the transport connected instead of closing it. -/
theorem create_session_init_failure_leaks_transport :
    (create_session ["s1"] true "s2" true false).registry = ["s1"] ∧
    (create_session ["s1"] true "s2" true false).outcome = .error .initializeError ∧
    "s2" ∉ (create_session ["s1"] true "s2" true false).registry ∧
    (create_session ["s1"] true "s2" true false).transportConnected = true :=
  ⟨rfl, rfl, by decide, rfl⟩

/-! ## C2: request/response correlation -/

/-- The sequence numbers assigned to `k` requests issued on a client whose
counter starts at `n`. -/
def seqsIssued (n k : Nat) : List Nat := (List.range k).map (fun j => n + 1 + j)

def keysOf (p : List (Nat × Option DAPResponse)) : List Nat := p.map Prod.fst

theorem keysOf_cons (k : Nat) (v : Option DAPResponse) (p : List (Nat × Option DAPResponse)) :
    keysOf ((k, v) :: p) = k :: keysOf p := rfl

theorem lookupPending_append (a b : List (Nat × Option DAPResponse)) (s : Nat) :
    lookupPending (a ++ b) s =
      (match lookupPending a s with
       | some v => some v
       | none => lookupPending b s) := by
  induction a with
  | nil => simp [lookupPending]
  | cons hd rest ih =>
    obtain ⟨k, v⟩ := hd
    by_cases hk : k = s <;> simp [lookupPending, hk, ih]

theorem keysOf_fillWaiter (p : List (Nat × Option DAPResponse)) (r : DAPResponse) :
    keysOf (fillWaiter p r) = keysOf p := by
  induction p with
  | nil => rfl
  | cons hd rest ih =>
    obtain ⟨k, v⟩ := hd
    by_cases hk : k = r.request_seq <;> simp [fillWaiter, hk, keysOf] at ih ⊢ <;> exact ih

theorem lookupPending_fillWaiter_ne (p : List (Nat × Option DAPResponse)) (r : DAPResponse)
    (s : Nat) (hs : s ≠ r.request_seq) :
    lookupPending (fillWaiter p r) s = lookupPending p s := by
  induction p with
  | nil => rfl
  | cons hd rest ih =>
    obtain ⟨k, v⟩ := hd
    by_cases hk : k = r.request_seq
    · subst hk
      have hns : ¬ (r.request_seq = s) := fun hc => hs hc.symm
      simp [fillWaiter, lookupPending, hns]
    · by_cases hks : k = s
      · subst hks
        simp [fillWaiter, hk, lookupPending]
      · simp [fillWaiter, hk, lookupPending, hks, ih]

theorem lookupPending_fillWaiter_self (p : List (Nat × Option DAPResponse)) (r : DAPResponse)
    (h : lookupPending p r.request_seq = some none) :
    lookupPending (fillWaiter p r) r.request_seq = some (some r) := by
  induction p with
  | nil => simp [lookupPending] at h
  | cons hd rest ih =>
    obtain ⟨k, v⟩ := hd
    by_cases hk : k = r.request_seq
    · subst hk
      have hv : v = none := by simpa [lookupPending] using h
      subst hv
      simp [fillWaiter, lookupPending]
    · have h2 : lookupPending rest r.request_seq = some none := by
        simpa [lookupPending, hk] using h
      simp [fillWaiter, hk, lookupPending, ih h2]

theorem lookupPending_fillWaiter_keeps (p : List (Nat × Option DAPResponse)) (r r0 : DAPResponse)
    (s : Nat) (h : lookupPending p s = some (some r0)) :
    lookupPending (fillWaiter p r) s = some (some r0) := by
  induction p with
  | nil => simp [lookupPending] at h
  | cons hd rest ih =>
    obtain ⟨k, v⟩ := hd
    by_cases hk : k = r.request_seq
    · subst hk
      by_cases hks : r.request_seq = s
      · subst hks
        have hv : v = some r0 := by simpa [lookupPending] using h
        subst hv
        simp [fillWaiter, lookupPending]
      · have h2 : lookupPending rest s = some (some r0) := by
          simpa [lookupPending, hks] using h
        simp [fillWaiter, lookupPending, hks, h2]
    · by_cases hks : k = s
      · subst hks
        have hv : v = some r0 := by simpa [lookupPending] using h
        subst hv
        simp [fillWaiter, hk, lookupPending]
      · have h2 : lookupPending rest s = some (some r0) := by
          simpa [lookupPending, hks] using h
        simp [fillWaiter, hk, lookupPending, hks, ih h2]

theorem applyResponses_keeps (c : ClientSt) (rs : List DAPResponse) (r0 : DAPResponse) (s : Nat)
    (h : lookupPending c.pending s = some (some r0)) :
    lookupPending (applyResponses c rs).pending s = some (some r0) := by
  induction rs generalizing c with
  | nil => exact h
  | cons r rest ih =>
    exact ih (handle_response c r) (lookupPending_fillWaiter_keeps c.pending r r0 s h)

/-- Delivering a batch of responses that contains exactly one response with
`request_seq = s` resolves the unresolved waiter at `s` with precisely
that response. -/
theorem applyResponses_resolves (c : ClientSt) (rs : List DAPResponse) (r : DAPResponse)
    (s : Nat) (hwait : lookupPending c.pending s = some none)
    (hmem : r ∈ rs) (hseq : r.request_seq = s)
    (huniq : ∀ r2 ∈ rs, r2.request_seq = s → r2 = r) :
    lookupPending (applyResponses c rs).pending s = some (some r) := by
  induction rs generalizing c with
  | nil => cases hmem
  | cons r0 rest ih =>
    by_cases h0 : r0.request_seq = s
    · have hr0 : r0 = r := huniq r0 (by simp) h0
      subst hr0
      have hres : lookupPending (handle_response c r0).pending s = some (some r0) := by
        show lookupPending (fillWaiter c.pending r0) s = some (some r0)
        have hw : lookupPending c.pending r0.request_seq = some none := by
          rw [h0]; exact hwait
        have := lookupPending_fillWaiter_self c.pending r0 hw
        rw [h0] at this
        exact this
      exact applyResponses_keeps (handle_response c r0) rest r0 s hres
    · have hmem2 : r ∈ rest := by
        rcases List.mem_cons.mp hmem with h | h
        · exact absurd (h ▸ hseq) h0
        · exact h
      have hwait2 : lookupPending (handle_response c r0).pending s = some none := by
        show lookupPending (fillWaiter c.pending r0) s = some none
        rw [lookupPending_fillWaiter_ne c.pending r0 s (fun hc => h0 hc.symm)]
        exact hwait
      exact ih (handle_response c r0) hwait2 hmem2
        (fun r2 h2 hs2 => huniq r2 (List.mem_cons_of_mem _ h2) hs2)

theorem issueMany_pending (c : ClientSt) (k : Nat) :
    (issueMany c k).pending
      = c.pending ++ (List.range k).map (fun j => (c.seq + 1 + j, none)) := by
  induction k generalizing c with
  | zero => simp [issueMany]
  | succ k ih =>
    rw [issueMany, ih]
    simp only [issueRequest, List.range_succ_eq_map, List.map_cons, List.map_map,
      List.append_assoc, List.cons_append, List.nil_append, Nat.add_zero]
    apply congrArg (fun t => c.pending ++ t)
    apply congrArg (List.cons (c.seq + 1, none))
    apply List.map_congr_left
    intro j _
    simp only [Function.comp_apply]
    have hj : c.seq + 1 + 1 + j = c.seq + 1 + (j + 1) := by omega
    rw [hj]

theorem lookupPending_not_mem (p : List (Nat × Option DAPResponse)) (s : Nat)
    (h : s ∉ keysOf p) : lookupPending p s = none := by
  induction p with
  | nil => rfl
  | cons hd rest ih =>
    obtain ⟨k, v⟩ := hd
    simp only [keysOf_cons, List.mem_cons, not_or] at h
    have hk : ¬ k = s := fun hc => h.1 hc.symm
    simp [lookupPending, hk, ih h.2]

theorem removePending_self_none (p : List (Nat × Option DAPResponse)) (s : Nat)
    (h : (keysOf p).Nodup) : lookupPending (removePending p s) s = none := by
  induction p with
  | nil => rfl
  | cons hd rest ih =>
    obtain ⟨k, v⟩ := hd
    simp only [keysOf_cons, List.nodup_cons] at h
    by_cases hk : k = s
    · subst hk
      simp only [removePending, if_pos rfl]
      exact lookupPending_not_mem rest k h.1
    · simp [removePending, hk, lookupPending, ih h.2]

theorem keysOf_applyResponses (c : ClientSt) (rs : List DAPResponse) :
    keysOf (applyResponses c rs).pending = keysOf c.pending := by
  induction rs generalizing c with
  | nil => rfl
  | cons r rest ih =>
    rw [applyResponses, List.foldl_cons, ← applyResponses]
    rw [ih (handle_response c r)]
    exact keysOf_fillWaiter c.pending r

theorem lookupPending_seqs (n k j : Nat) (hj : j < k) :
    lookupPending ((List.range k).map (fun j2 => (n + 1 + j2, none))) (n + 1 + j)
      = some none := by
  induction k with
  | zero => omega
  | succ k ih =>
    rw [List.range_succ, List.map_append, lookupPending_append]
    by_cases hjk : j < k
    · rw [ih hjk]
    · have hj2 : j = k := by omega
      subst hj2
      have hnone : lookupPending ((List.range j).map (fun j2 => (n + 1 + j2, none)))
          (n + 1 + j) = none := by
        apply lookupPending_not_mem
        simp only [keysOf, List.map_map, List.mem_map, Function.comp_apply, List.mem_range]
        rintro ⟨j2, hj2, he⟩
        omega
      rw [hnone]
      simp [lookupPending]

/-- C2.  Issue `k` requests through `request()`; they are assigned the
sequence numbers `n+1 … n+k`.  For every permutation in which the adapter
returns the matching responses, each call's waiter resolves to exactly the
response whose `request_seq` equals the seq that call assigned — a
successful response is returned, a `success=false` one raises `DAPError` —
and the `finally` block removes the waiter from the pending map. -/
theorem request_response_correlation (n k : Nat) (f : Nat → DAPResponse)
    (hf : ∀ s, (f s).request_seq = s) (order : List Nat)
    (hperm : order.Perm (seqsIssued n k)) (s : Nat) (hs : s ∈ seqsIssued n k) :
    lookupPending (applyResponses (issueMany (mkClient n) k) (order.map f)).pending s
      = some (some (f s)) ∧
    (finishRequest (applyResponses (issueMany (mkClient n) k) (order.map f)) s).2
      = (if (f s).success then .ok (f s) else .dapError (f s).message) ∧
    lookupPending
      (finishRequest (applyResponses (issueMany (mkClient n) k) (order.map f)) s).1.pending s
      = none := by
  have hkeys : keysOf (issueMany (mkClient n) k).pending = seqsIssued n k := by
    rw [issueMany_pending]
    simp [mkClient, keysOf, seqsIssued]
  have hwait : lookupPending (issueMany (mkClient n) k).pending s = some none := by
    rw [issueMany_pending]
    simp only [mkClient, List.nil_append]
    simp only [seqsIssued, List.mem_map, List.mem_range] at hs
    obtain ⟨j, hj, rfl⟩ := hs
    exact lookupPending_seqs n k j hj
  have hmem : f s ∈ order.map f := List.mem_map_of_mem f (hperm.mem_iff.mpr hs)
  have huniq : ∀ r2 ∈ order.map f, r2.request_seq = s → r2 = f s := by
    intro r2 h2 hs2
    obtain ⟨s2, _, rfl⟩ := List.mem_map.mp h2
    rw [hf s2] at hs2
    rw [hs2]
  have hres := applyResponses_resolves (issueMany (mkClient n) k) (order.map f) (f s) s
    hwait hmem (hf s) huniq
  have hnodup :
      (keysOf (applyResponses (issueMany (mkClient n) k) (order.map f)).pending).Nodup := by
    rw [keysOf_applyResponses, hkeys]
    refine List.Nodup.map ?_ (List.nodup_range k)
    intro a2 b2 hab
    have hab2 : n + 1 + a2 = n + 1 + b2 := hab
    omega
  refine ⟨hres, ?_, ?_⟩
  · simp [finishRequest, hres]
  · simp only [finishRequest]
    exact removePending_self_none _ s hnodup

/-- Witness for C2: two requests (seqs 1 and 2), responses delivered in
reverse order; the call that assigned seq 1 resolves to the response with
`request_seq = 1`, and its waiter is gone afterwards. -/
theorem request_response_correlation_witness :
    ([2, 1].Perm (seqsIssued 0 2)) ∧
    lookupPending
        (applyResponses (issueMany (mkClient 0) 2)
          ([2, 1].map (fun s => DAPResponse.mk s true none none))).pending 1
      = some (some (DAPResponse.mk 1 true none none)) ∧
    (finishRequest
        (applyResponses (issueMany (mkClient 0) 2)
          ([2, 1].map (fun s => DAPResponse.mk s true none none))) 1).2
      = .ok (DAPResponse.mk 1 true none none) := by
  have h := request_response_correlation 0 2 (fun s => DAPResponse.mk s true none none)
    (fun s => rfl) [2, 1] (by decide) 1 (by decide)
  refine ⟨by decide, h.1, ?_⟩
  rw [h.2.1]
  rfl

/-! ## C9: header parse robustness -/

theorem find?_append_first {α : Type} (p : α → Bool) (pre post : List α) (x : α)
    (hpre : ∀ y ∈ pre, p y = false) (hx : p x = true) :
    (pre ++ x :: post).find? p = some x := by
  induction pre with
  | nil => simp [List.find?_cons, hx]
  | cons y rest ih =>
    have hy : p y = false := hpre y (by simp)
    simp only [List.cons_append, List.find?_cons, hy]
    exact ih (fun z hz => hpre z (by simp [hz]))

/-- C9 (amended).  If the FIRST line of the header blob that
case-insensitively starts with `content-length:` carries an integer value
N, `parse_content_length` returns N; and it raises `DAPProtocolError`
exactly when the bytes do not decode as UTF-8, no line matches, or that
first matching line's value is not an integer. -/
theorem parse_content_length_robust (H : List Nat) :
    (∀ (chars : List Char) (pre post : List (List Char)) (line : List Char) (N : Int),
        utf8DecodeBytes H = some chars →
        splitCRLF chars = pre ++ line :: post →
        (∀ l2 ∈ pre, isCLLine l2 = false) →
        isCLLine line = true →
        pyIntOfStr (pyStrip (afterFirstColon line)) = some N →
        parse_content_length H = some N) ∧
    (parse_content_length H = none ↔
      utf8DecodeBytes H = none ∨
      ∃ chars, utf8DecodeBytes H = some chars ∧
        ((∀ l2 ∈ splitCRLF chars, isCLLine l2 = false) ∨
          ∃ line, (splitCRLF chars).find? isCLLine = some line ∧
            pyIntOfStr (pyStrip (afterFirstColon line)) = none)) := by
  constructor
  · intro chars pre post line N hdec hsplit hpre hline hval
    simp only [parse_content_length, hdec, hsplit,
      find?_append_first isCLLine pre post line hpre hline]
    exact hval
  · cases hdec : utf8DecodeBytes H with
    | none => simp [parse_content_length, hdec]
    | some chars =>
      cases hfind : (splitCRLF chars).find? isCLLine with
      | none =>
        have hall : ∀ l2 ∈ splitCRLF chars, isCLLine l2 = false := by
          intro l2 hl2
          have := List.find?_eq_none.mp hfind l2 hl2
          simpa using this
        simp only [parse_content_length, hdec, hfind]
        constructor
        · intro _
          exact Or.inr ⟨chars, rfl, Or.inl hall⟩
        · intro _
          simp [parse_content_length, hdec, hfind]
      | some line =>
        simp only [parse_content_length, hdec, hfind]
        constructor
        · intro hval
          exact Or.inr ⟨chars, rfl, Or.inr ⟨line, hfind, hval⟩⟩
        · rintro (h | ⟨chars2, hc2, h2⟩)
          · exact absurd h (by simp)
          · have hc : chars2 = chars := by
              injection hc2 with hc
              exact hc.symm
            subst hc
            rcases h2 with h2 | ⟨line2, hl2, hv2⟩
            · have hmem := List.mem_of_find?_eq_some hfind
              have htrue := List.find?_some hfind
              rw [h2 line hmem] at htrue
              cases htrue
            · rw [hfind] at hl2
              injection hl2 with hl
              rw [hl]
              exact hv2

/-- Counterexample to C9 as stated: this blob contains a line that
case-insensitively starts with `content-length:` and carries the
non-negative integer 1, yet `parse_content_length` raises, because an
earlier matching line has a non-integer value and the scan stops at the
first match. -/
theorem parse_content_length_claim_counterexample :
    (∃ line ∈ splitCRLF ("content-length: x\r\ncontent-length: 1".data),
        isCLLine line = true ∧
        pyIntOfStr (pyStrip (afterFirstColon line)) = some 1 ∧ (0 : Int) ≤ 1) ∧
    utf8DecodeBytes (strBytes ("content-length: x\r\ncontent-length: 1".data))
      = some ("content-length: x\r\ncontent-length: 1".data) ∧
    parse_content_length (strBytes ("content-length: x\r\ncontent-length: 1".data))
      = none := by
  decide

/-- Witness for C9 (amended) at a concrete blob whose first matching line
(after one non-matching line) carries the value 42. -/
theorem parse_content_length_robust_witness :
    parse_content_length (strBytes ("x: y\r\nCONTENT-LENGTH: 42".data)) = some 42 := by
  have h := (parse_content_length_robust (strBytes ("x: y\r\nCONTENT-LENGTH: 42".data))).1
  exact h ("x: y\r\nCONTENT-LENGTH: 42".data) ["x: y".data] [] ("CONTENT-LENGTH: 42".data) 42
    (by decide) (by decide) (by decide) (by decide) (by decide)

/-! ## Decimal printing round-trip -/

theorem digitVal_digitChar (d : Nat) : digitVal (digitChar d) = d % 10 := by
  show digitVal (Char.ofNat (48 + d % 10)) = d % 10
  have h : d % 10 < 10 := Nat.mod_lt _ (by omega)
  revert h
  generalize d % 10 = m
  intro h
  interval_cases m <;> decide

theorem isDigitCh_digitChar (d : Nat) : isDigitCh (digitChar d) = true := by
  show isDigitCh (Char.ofNat (48 + d % 10)) = true
  have h : d % 10 < 10 := Nat.mod_lt _ (by omega)
  revert h
  generalize d % 10 = m
  intro h
  interval_cases m <;> decide

theorem isDigitCh_range (c : Char) (h : isDigitCh c = true) :
    48 ≤ c.toNat ∧ c.toNat ≤ 57 := by
  simp only [isDigitCh, Bool.and_eq_true, decide_eq_true_eq] at h
  exact h

theorem natToDecRev_fuel_eq (f1 : Nat) : ∀ (f2 n : Nat), n < f1 → n < f2 →
    natToDecRev f1 n = natToDecRev f2 n := by
  induction f1 with
  | zero => intro f2 n h1 _; omega
  | succ f ih =>
    intro f2 n h1 h2
    cases f2 with
    | zero => omega
    | succ g =>
      show natToDecRev (f + 1) n = natToDecRev (g + 1) n
      rw [natToDecRev, natToDecRev]
      by_cases hn : n < 10
      · simp [hn]
      · simp only [if_neg hn]
        have hlt : n / 10 < n := Nat.div_lt_self (by omega) (by omega)
        rw [ih g (n / 10) (by omega) (by omega)]

theorem natToDec_small (n : Nat) (h : n < 10) : natToDec n = [digitChar n] := by
  rw [natToDec, natToDecRev]
  simp [h]

theorem natToDec_split (n : Nat) (h : 10 ≤ n) :
    natToDec n = natToDec (n / 10) ++ [digitChar (n % 10)] := by
  rw [natToDec, natToDecRev]
  simp only [if_neg (by omega : ¬ n < 10)]
  rw [List.reverse_cons]
  congr 1
  rw [natToDec]
  rw [natToDecRev_fuel_eq n (n / 10 + 1) (n / 10) (Nat.div_lt_self (by omega) (by omega))
    (by omega)]

theorem natToDec_ne_nil (n : Nat) : natToDec n ≠ [] := by
  by_cases h : n < 10
  · rw [natToDec_small n h]; simp
  · rw [natToDec_split n (by omega)]; simp

theorem natToDec_digits (n : Nat) : ∀ c ∈ natToDec n, isDigitCh c = true := by
  induction n using Nat.strong_induction_on with
  | _ n ih =>
    by_cases h : n < 10
    · rw [natToDec_small n h]
      intro c hc
      rw [List.mem_singleton] at hc
      subst hc
      exact isDigitCh_digitChar n
    · rw [natToDec_split n (by omega)]
      intro c hc
      rcases List.mem_append.mp hc with hc | hc
      · exact ih (n / 10) (Nat.div_lt_self (by omega) (by omega)) c hc
      · rw [List.mem_singleton] at hc
        subst hc
        exact isDigitCh_digitChar (n % 10)

theorem decValue_append_digit (ds : List Char) (c : Char) :
    decValue (ds ++ [c]) = decValue ds * 10 + digitVal c := by
  simp [decValue, List.foldl_append]

theorem decValue_natToDec (n : Nat) : decValue (natToDec n) = n := by
  induction n using Nat.strong_induction_on with
  | _ n ih =>
    by_cases h : n < 10
    · rw [natToDec_small n h]
      show 0 * 10 + digitVal (digitChar n) = n
      rw [digitVal_digitChar]
      omega
    · rw [natToDec_split n (by omega), decValue_append_digit,
        ih (n / 10) (Nat.div_lt_self (by omega) (by omega)), digitVal_digitChar]
      omega

theorem natToDec_head (n : Nat) (h : n ≠ 0) :
    ∃ c t, natToDec n = c :: t ∧ isDigitCh c = true ∧ c ≠ '0' := by
  induction n using Nat.strong_induction_on with
  | _ n ih =>
    by_cases hn : n < 10
    · refine ⟨digitChar n, [], natToDec_small n hn, isDigitCh_digitChar n, ?_⟩
      revert h hn
      match n with
      | 0 => intro h _; exact absurd rfl h
      | m + 1 =>
        intro _ hn
        have hm : m < 9 := by omega
        interval_cases m <;> decide
    · obtain ⟨c, t, he, hd, h0⟩ := ih (n / 10) (Nat.div_lt_self (by omega) (by omega))
        (by omega)
      exact ⟨c, t ++ [digitChar (n % 10)], by rw [natToDec_split n (by omega), he]; rfl,
        hd, h0⟩

/-! ## Integer literal round-trip -/

def headIsDigit : List Char → Bool
  | [] => false
  | c :: _ => isDigitCh c

theorem takeDigitsRun_append (ds rest : List Char)
    (hds : ∀ c ∈ ds, isDigitCh c = true) (hrest : headIsDigit rest = false) :
    takeDigitsRun (ds ++ rest) = (ds, rest) := by
  induction ds with
  | nil =>
    cases rest with
    | nil => rfl
    | cons c t =>
      have hc : isDigitCh c = false := hrest
      simp [takeDigitsRun, hc]
  | cons c t ih =>
    have hc : isDigitCh c = true := hds c (by simp)
    have ht := ih (fun c2 h2 => hds c2 (by simp [h2]))
    simp [takeDigitsRun, hc, ht]

theorem parseJsonInt_intToDec (v : Int) (rest : List Char)
    (hnd : headIsDigit rest = false) (hff : floatFollows rest = false) :
    parseJsonInt (intToDec v ++ rest) = some (v, rest) := by
  rcases lt_trichotomy v 0 with hv | hv | hv
  · have habs : v.natAbs ≠ 0 := by omega
    obtain ⟨c, t, he, hd, h0⟩ := natToDec_head v.natAbs habs
    have harg : intToDec v ++ rest = '-' :: (c :: (t ++ rest)) := by
      simp [intToDec, hv, he]
    rw [harg]
    have hds : ∀ c2 ∈ t, isDigitCh c2 = true := by
      intro c2 h2
      exact natToDec_digits v.natAbs c2 (by rw [he]; simp [h2])
    have htake := takeDigitsRun_append t rest hds hnd
    have hdec : decValue (c :: t) = v.natAbs := by
      have := decValue_natToDec v.natAbs
      rwa [he] at this
    simp only [parseJsonInt, if_pos rfl, parseIntDigits, h0, if_false, hd, if_true,
      htake, hff, Bool.false_eq_true, hdec]
    have hval : -(v.natAbs : Int) = v := by omega
    rw [hval]
  · subst hv
    have harg : intToDec 0 ++ rest = '0' :: rest := by
      simp [intToDec, natToDec_small 0 (by omega)]
      rfl
    rw [harg]
    simp [parseJsonInt, parseIntDigits, hff]
  · have habs : v.natAbs ≠ 0 := by omega
    obtain ⟨c, t, he, hd, h0⟩ := natToDec_head v.natAbs habs
    have harg : intToDec v ++ rest = c :: (t ++ rest) := by
      have hvn : ¬ v < 0 := by omega
      simp [intToDec, hvn, he]
    rw [harg]
    have hds : ∀ c2 ∈ t, isDigitCh c2 = true := by
      intro c2 h2
      exact natToDec_digits v.natAbs c2 (by rw [he]; simp [h2])
    have htake := takeDigitsRun_append t rest hds hnd
    have hdec : decValue (c :: t) = v.natAbs := by
      have := decValue_natToDec v.natAbs
      rwa [he] at this
    have hcm : c ≠ '-' := by
      intro hc
      rw [hc] at hd
      exact absurd hd (by decide)
    simp only [parseJsonInt, hcm, if_false, parseIntDigits, h0, hd, if_true,
      htake, hff, Bool.false_eq_true, hdec]
    have hval : (v.natAbs : Int) = v := by omega
    rw [hval]

/-! ## String escape round-trip -/

theorem hexVal_hexDigitLower (d : Nat) : hexVal (hexDigitLower d) = some (d % 16) := by
  show hexVal (if d % 16 < 10 then Char.ofNat (48 + d % 16) else Char.ofNat (87 + d % 16))
    = some (d % 16)
  have h : d % 16 < 16 := Nat.mod_lt _ (by omega)
  revert h
  generalize d % 16 = m
  intro h
  interval_cases m <;> decide

theorem hexQuad_hex4 (n : Nat) (h : n < 65536) :
    hexQuad (hexDigitLower (n / 4096)) (hexDigitLower (n / 256)) (hexDigitLower (n / 16))
      (hexDigitLower n) = some n := by
  simp only [hexQuad, hexVal_hexDigitLower]
  congr 1
  omega

theorem parseStrBody_lit (c : Char) (rest : List Char) (h1 : c ≠ '"') (h2 : c ≠ '\\')
    (h3 : ¬ c.toNat < 32) :
    parseStrBody (c :: rest) = (parseStrBody rest).map (fun p => (c :: p.1, p.2)) := by
  rw [parseStrBody.eq_def]
  split
  · rename_i heq
    injection heq with hc _
    exact absurd hc h1
  · rename_i heq
    injection heq with hc _
    exact absurd hc h2
  · rename_i heq
    injection heq with hc _
    exact absurd hc h2
  · rename_i c2 rest2 heq
    injection heq with hc hr
    subst hc
    subst hr
    simp [h3]
  · rename_i heq
    cases heq

theorem char_scalar_range (c : Char) :
    c.toNat < 55296 ∨ (57344 ≤ c.toNat ∧ c.toNat < 1114112) := by
  have hv := c.valid
  have htn : c.toNat = c.val.toNat := rfl
  rcases hv with h | ⟨h1, h2⟩
  · left
    omega
  · right
    constructor <;> omega

theorem parseStrBody_escapeChar (c : Char) (rest : List Char) :
    parseStrBody (escapeChar c ++ rest) = (parseStrBody rest).map (fun p => (c :: p.1, p.2)) := by
  rw [escapeChar]
  by_cases hbs : c = '\\'
  · subst hbs
    simp [parseStrBody, shortUnescape]
  · rw [if_neg hbs]
    by_cases hq : c = '"'
    · subst hq
      simp [parseStrBody, shortUnescape]
    · rw [if_neg hq]
      by_cases hpr : 32 ≤ c.toNat ∧ c.toNat ≤ 126
      · rw [if_pos hpr]
        show parseStrBody (c :: rest) = _
        exact parseStrBody_lit c rest hq hbs (by omega)
      · rw [if_neg hpr]
        by_cases h8 : c = Char.ofNat 8
        · subst h8
          simp [parseStrBody, shortUnescape]
        · rw [if_neg h8]
          by_cases h9 : c = Char.ofNat 9
          · subst h9
            simp [parseStrBody, shortUnescape]
          · rw [if_neg h9]
            by_cases h10 : c = Char.ofNat 10
            · subst h10
              simp [parseStrBody, shortUnescape]
            · rw [if_neg h10]
              by_cases h12 : c = Char.ofNat 12
              · subst h12
                simp [parseStrBody, shortUnescape]
              · rw [if_neg h12]
                by_cases h13 : c = Char.ofNat 13
                · subst h13
                  simp [parseStrBody, shortUnescape]
                · rw [if_neg h13]
                  by_cases hbmp : c.toNat < 65536
                  · rw [if_pos hbmp]
                    show parseStrBody
                        ('\\' :: 'u' :: (hexDigitLower (c.toNat / 4096) ::
                          hexDigitLower (c.toNat / 256) :: hexDigitLower (c.toNat / 16) ::
                          hexDigitLower c.toNat :: rest))
                      = _
                    simp only [parseStrBody, hexQuad_hex4 c.toNat hbmp]
                    have hcond : c.toNat < 55296 ∨ 57344 ≤ c.toNat := by
                      rcases char_scalar_range c with hr | hr
                      · exact Or.inl hr
                      · exact Or.inr hr.1
                    rw [if_pos hcond, Char.ofNat_toNat]
                  · rw [if_neg hbmp]
                    have hmax : c.toNat < 1114112 := by
                      rcases char_scalar_range c with hr | hr
                      · omega
                      · exact hr.2
                    show parseStrBody
                        ('\\' :: 'u' :: (hexDigitLower ((55296 + (c.toNat - 65536) / 1024) / 4096) ::
                          hexDigitLower ((55296 + (c.toNat - 65536) / 1024) / 256) ::
                          hexDigitLower ((55296 + (c.toNat - 65536) / 1024) / 16) ::
                          hexDigitLower (55296 + (c.toNat - 65536) / 1024) ::
                          ('\\' :: 'u' :: (hexDigitLower ((56320 + (c.toNat - 65536) % 1024) / 4096) ::
                            hexDigitLower ((56320 + (c.toNat - 65536) % 1024) / 256) ::
                            hexDigitLower ((56320 + (c.toNat - 65536) % 1024) / 16) ::
                            hexDigitLower (56320 + (c.toNat - 65536) % 1024) :: rest)))) = _
                    simp only [parseStrBody,
                      hexQuad_hex4 (55296 + (c.toNat - 65536) / 1024) (by omega),
                      hexQuad_hex4 (56320 + (c.toNat - 65536) % 1024) (by omega)]
                    have hhi1 : ¬ (55296 + (c.toNat - 65536) / 1024 < 55296 ∨
                        57344 ≤ 55296 + (c.toNat - 65536) / 1024) := by omega
                    rw [if_neg hhi1]
                    rw [if_pos (by omega : 55296 + (c.toNat - 65536) / 1024 < 56320)]
                    rw [if_pos (by constructor <;> omega :
                      56320 ≤ 56320 + (c.toNat - 65536) % 1024 ∧
                        56320 + (c.toNat - 65536) % 1024 < 57344)]
                    have harith : 65536 + (55296 + (c.toNat - 65536) / 1024 - 55296) * 1024 +
                        (56320 + (c.toNat - 65536) % 1024 - 56320) = c.toNat := by omega
                    rw [harith, Char.ofNat_toNat]

theorem parseStrBody_escapeString (cs : List Char) (rest : List Char) :
    parseStrBody (escapeString cs ++ '"' :: rest) = some (cs, rest) := by
  induction cs with
  | nil => rfl
  | cons c t ih =>
    show parseStrBody ((escapeChar c ++ escapeString t) ++ '"' :: rest) = _
    rw [List.append_assoc, parseStrBody_escapeChar, ih]
    rfl

/-! ## Serializer output shape -/

mutual

/-- Fuel needed for the parser to consume a serialized value: 1 per value
plus 1 per list/member step. -/
def jfuel : Json → Nat
  | .null => 1
  | .b _ => 1
  | .i _ => 1
  | .s _ => 1
  | .arr elems => 1 + jfuelE elems
  | .obj members => 1 + jfuelM members

def jfuelE : List Json → Nat
  | [] => 0
  | x :: xs => 1 + jfuel x + jfuelE xs

def jfuelM : List (String × Json) → Nat
  | [] => 0
  | (_, v) :: ms => 1 + jfuel v + jfuelM ms

end

/-- Every serialized value starts with a character that is not whitespace,
not a closing bracket, not a comma, and determines its branch. -/
theorem dumps_head (v : Json) :
    ∃ c t, dumps v = c :: t ∧ isJsonWs c = false ∧ c ≠ ']' ∧ c ≠ '}' := by
  cases v with
  | null => exact ⟨'n', _, rfl, by decide, by decide, by decide⟩
  | b bv =>
    cases bv with
    | true => exact ⟨'t', _, rfl, by decide, by decide, by decide⟩
    | false => exact ⟨'f', _, rfl, by decide, by decide, by decide⟩
  | i iv =>
    by_cases hneg : iv < 0
    · refine ⟨'-', natToDec iv.natAbs, ?_, by decide, by decide, by decide⟩
      simp [dumps, intToDec, hneg]
    · have habs : iv.natAbs ≠ 0 ∨ iv.natAbs = 0 := by omega
      rcases habs with habs | habs
      · obtain ⟨c, t, he, hd, _⟩ := natToDec_head iv.natAbs habs
        obtain ⟨h48, h57⟩ := isDigitCh_range c hd
        refine ⟨c, t, ?_, ?_, ?_, ?_⟩
        · simp [dumps, intToDec, hneg, he]
        · simp only [isJsonWs]
          have : c.toNat ≠ 32 ∧ c.toNat ≠ 9 ∧ c.toNat ≠ 10 ∧ c.toNat ≠ 13 := by omega
          obtain ⟨ha, hb, hc2, hd2⟩ := this
          simp only [Bool.or_eq_false_iff, decide_eq_false_iff_not]
          exact ⟨⟨⟨fun he2 => ha (by rw [he2]; rfl), fun he2 => hb (by rw [he2]; rfl)⟩,
            fun he2 => hc2 (by rw [he2]; rfl)⟩, fun he2 => hd2 (by rw [he2]; rfl)⟩
        · intro he2
          rw [he2] at h48 h57
          revert h48 h57
          decide
        · intro he2
          rw [he2] at h48 h57
          revert h48 h57
          decide
      · refine ⟨'0', [], ?_, by decide, by decide, by decide⟩
        rw [show iv = 0 from by omega]
        rfl
  | s sv => exact ⟨'"', _, rfl, by decide, by decide, by decide⟩
  | arr elems => exact ⟨'[', _, rfl, by decide, by decide, by decide⟩
  | obj members => exact ⟨'{', _, rfl, by decide, by decide, by decide⟩

theorem skipWs_dumps (v : Json) (x : List Char) :
    skipWs (dumps v ++ x) = dumps v ++ x := by
  obtain ⟨c, t, he, hws, _, _⟩ := dumps_head v
  rw [he, List.cons_append, skipWs, if_neg (by rw [hws]; exact Bool.false_ne_true)]

/-- Tail of a serialized element list after its first element. -/
def dumpSep : List Json → List Char
  | [] => []
  | y :: ys => ',' :: dumpElems (y :: ys)

/-- Tail of a serialized member list after its first member. -/
def dumpMSep : List (String × Json) → List Char
  | [] => []
  | m :: ms => ',' :: dumpMembers (m :: ms)

theorem dumpElems_eq (x : Json) (xs : List Json) :
    dumpElems (x :: xs) = dumps x ++ dumpSep xs := by
  cases xs <;> simp [dumpElems, dumpSep]

theorem dumpMembers_eq (k : String) (v : Json) (ms : List (String × Json)) :
    dumpMembers ((k, v) :: ms) = dumpString k ++ ':' :: (dumps v ++ dumpMSep ms) := by
  cases ms <;> simp [dumpMembers, dumpMSep]

theorem digit_head_facts (c : Char) (h : isDigitCh c = true) :
    c ≠ 'n' ∧ c ≠ 't' ∧ c ≠ 'f' ∧ c ≠ '"' ∧ c ≠ '[' ∧ c ≠ '{' := by
  obtain ⟨h48, h57⟩ := isDigitCh_range c h
  refine ⟨?_, ?_, ?_, ?_, ?_, ?_⟩ <;>
    (intro he; rw [he] at h48 h57; revert h48 h57; decide)

theorem parseValue_int_step (fuel : Nat) (c : Char) (t : List Char)
    (hn : c ≠ 'n') (ht : c ≠ 't') (hf : c ≠ 'f') (hq : c ≠ '"')
    (hbk : c ≠ '[') (hbc : c ≠ '{') :
    parseValue (fuel + 1) (c :: t) = (parseJsonInt (c :: t)).map (fun p => (Json.i p.1, p.2)) := by
  rw [parseValue.eq_def]
  split
  · rename_i heq
    exact absurd heq (by omega)
  · rename_i f2 heq
    have hf2 : f2 = fuel := by omega
    subst hf2
    split
    · rename_i heq2
      injection heq2 with hc _
      exact absurd hc hn
    · rename_i heq2
      injection heq2 with hc _
      exact absurd hc ht
    · rename_i heq2
      injection heq2 with hc _
      exact absurd hc hf
    · rename_i heq2
      injection heq2 with hc _
      exact absurd hc hq
    · rename_i heq2
      injection heq2 with hc _
      exact absurd hc hbk
    · rename_i heq2
      injection heq2 with hc _
      exact absurd hc hbc
    · rfl

theorem parseValue_strBranch (fuel : Nat) (y : List Char) :
    parseValue (fuel + 1) ('"' :: y)
      = (parseStrBody y).map (fun p => (Json.s (String.mk p.1), p.2)) := rfl

theorem parseValue_arrBranch (fuel : Nat) (y : List Char) :
    parseValue (fuel + 1) ('[' :: y)
      = (match skipWs y with
         | ']' :: r2 => some (Json.arr [], r2)
         | r2 => (parseElemsRest fuel r2).map (fun p => (Json.arr p.1, p.2))) := rfl

theorem parseValue_objBranch (fuel : Nat) (y : List Char) :
    parseValue (fuel + 1) ('{' :: y)
      = (match skipWs y with
         | '}' :: r2 => some (Json.obj [], r2)
         | r2 => (parseMembersRest fuel r2).map (fun p => (Json.obj p.1, p.2))) := rfl

theorem parseElemsRest_step (fuel : Nat) (cs : List Char) :
    parseElemsRest (fuel + 1) cs
      = (match parseValue fuel cs with
         | none => none
         | some (v, r) =>
           match skipWs r with
           | ',' :: r2 =>
             (match parseElemsRest fuel (skipWs r2) with
              | some (vs, r3) => some (v :: vs, r3)
              | none => none)
           | ']' :: r2 => some ([v], r2)
           | _ => none) := rfl

theorem parseMembersRest_step (fuel : Nat) (cs : List Char) :
    parseMembersRest (fuel + 1) cs
      = (match cs with
         | '"' :: r =>
           match parseStrBody r with
           | none => none
           | some (kcs, r1) =>
             match skipWs r1 with
             | ':' :: r2 =>
               match parseValue fuel (skipWs r2) with
               | none => none
               | some (v, r3) =>
                 match skipWs r3 with
                 | ',' :: r4 =>
                   (match parseMembersRest fuel (skipWs r4) with
                    | some (ms, r5) => some ((String.mk kcs, v) :: ms, r5)
                    | none => none)
                 | '}' :: r4 => some ([(String.mk kcs, v)], r4)
                 | _ => none
             | _ => none
         | _ => none) := rfl

theorem skipWs_not (c : Char) (h : isJsonWs c = false) (t : List Char) :
    skipWs (c :: t) = c :: t := by
  rw [skipWs, if_neg (by rw [h]; exact Bool.false_ne_true)]

theorem sep_delims (xs : List Json) (rest : List Char) :
    headIsDigit (dumpSep xs ++ ']' :: rest) = false ∧
    floatFollows (dumpSep xs ++ ']' :: rest) = false := by
  cases xs <;> exact ⟨rfl, rfl⟩

theorem msep_delims (ms : List (String × Json)) (rest : List Char) :
    headIsDigit (dumpMSep ms ++ '}' :: rest) = false ∧
    floatFollows (dumpMSep ms ++ '}' :: rest) = false := by
  cases ms <;> exact ⟨rfl, rfl⟩

theorem jfuel_pos (v : Json) : 1 ≤ jfuel v := by
  cases v <;> simp [jfuel]

theorem intToDec_head (v : Int) :
    ∃ c t, intToDec v = c :: t ∧ (c = '-' ∨ isDigitCh c = true) := by
  by_cases hv : v < 0
  · exact ⟨'-', natToDec v.natAbs, by simp [intToDec, hv], Or.inl rfl⟩
  · by_cases h0 : v.natAbs = 0
    · refine ⟨'0', [], ?_, Or.inr (by decide)⟩
      simp [intToDec, hv, h0, natToDec_small 0 (by omega)]
      decide
    · obtain ⟨c, t, he, hd, _⟩ := natToDec_head v.natAbs h0
      exact ⟨c, t, by simp [intToDec, hv, he], Or.inr hd⟩

mutual

/-- The parser inverts the serializer on any value, given enough fuel and a
remainder that cannot extend a number literal. -/
theorem parse_dumps : ∀ (v : Json) (fuel : Nat) (rest : List Char),
    jfuel v < fuel → headIsDigit rest = false → floatFollows rest = false →
    parseValue fuel (dumps v ++ rest) = some (v, rest)
  | .null, fuel, rest, hfu, _, _ => by
    cases fuel with
    | zero => exact absurd hfu (Nat.not_lt_zero _)
    | succ f => rfl
  | .b true, fuel, rest, hfu, _, _ => by
    cases fuel with
    | zero => exact absurd hfu (Nat.not_lt_zero _)
    | succ f => rfl
  | .b false, fuel, rest, hfu, _, _ => by
    cases fuel with
    | zero => exact absurd hfu (Nat.not_lt_zero _)
    | succ f => rfl
  | .i v, fuel, rest, hfu, hnd, hff => by
    cases fuel with
    | zero => exact absurd hfu (Nat.not_lt_zero _)
    | succ f =>
      show parseValue (f + 1) (intToDec v ++ rest) = some (.i v, rest)
      obtain ⟨c, t, he, hc⟩ := intToDec_head v
      have hfacts : c ≠ 'n' ∧ c ≠ 't' ∧ c ≠ 'f' ∧ c ≠ '"' ∧ c ≠ '[' ∧ c ≠ '{' := by
        rcases hc with hc | hc
        · subst hc
          exact ⟨by decide, by decide, by decide, by decide, by decide, by decide⟩
        · exact digit_head_facts c hc
      obtain ⟨h1, h2, h3, h4, h5, h6⟩ := hfacts
      rw [he, List.cons_append, parseValue_int_step f c (t ++ rest) h1 h2 h3 h4 h5 h6,
        ← List.cons_append, ← he, parseJsonInt_intToDec v rest hnd hff]
      rfl
  | .s sv, fuel, rest, hfu, _, _ => by
    cases fuel with
    | zero => exact absurd hfu (Nat.not_lt_zero _)
    | succ f =>
      have harg : dumps (.s sv) ++ rest = '"' :: (escapeString sv.data ++ ('"' :: rest)) := by
        simp [dumps, dumpString]
      rw [harg, parseValue_strBranch, parseStrBody_escapeString]
      rfl
  | .arr [], fuel, rest, hfu, _, _ => by
    cases fuel with
    | zero => exact absurd hfu (Nat.not_lt_zero _)
    | succ f => rfl
  | .arr (x :: xs), fuel, rest, hfu, _, _ => by
    cases fuel with
    | zero => exact absurd hfu (Nat.not_lt_zero _)
    | succ f =>
      have harg : dumps (.arr (x :: xs)) ++ rest
          = '[' :: (dumps x ++ (dumpSep xs ++ (']' :: rest))) := by
        simp [dumps, dumpElems_eq]
      rw [harg, parseValue_arrBranch,
        skipWs_dumps x (dumpSep xs ++ (']' :: rest))]
      obtain ⟨c, t, he, hws, hbr, hbc2⟩ := dumps_head x
      rw [he, List.cons_append]
      split
      · rename_i heq
        injection heq with hc _
        exact absurd hc hbr
      · have hfx : jfuelE (x :: xs) < f := by
          simp only [jfuel] at hfu
          omega
        rw [← List.cons_append, ← he,
          show dumps x ++ (dumpSep xs ++ (']' :: rest)) = dumpElems (x :: xs) ++ ']' :: rest
            from by rw [dumpElems_eq, List.append_assoc],
          parse_dumpElems x xs f rest hfx]
        rfl
  | .obj [], fuel, rest, hfu, _, _ => by
    cases fuel with
    | zero => exact absurd hfu (Nat.not_lt_zero _)
    | succ f => rfl
  | .obj ((k, v) :: ms), fuel, rest, hfu, _, _ => by
    cases fuel with
    | zero => exact absurd hfu (Nat.not_lt_zero _)
    | succ f =>
      have harg : dumps (.obj ((k, v) :: ms)) ++ rest
          = '{' :: (dumpMembers ((k, v) :: ms) ++ ('}' :: rest)) := by
        simp [dumps]
      have hY : dumpMembers ((k, v) :: ms) ++ ('}' :: rest)
          = '"' :: ((escapeString k.data ++ ['"'])
              ++ ((':' :: (dumps v ++ dumpMSep ms)) ++ ('}' :: rest))) := by
        rw [dumpMembers_eq]
        simp [dumpString]
      have hfm : jfuelM ((k, v) :: ms) < f := by
        simp only [jfuel] at hfu
        omega
      rw [harg, parseValue_objBranch, hY, skipWs_not '"' (by decide)]
      split
      · rename_i heq
        injection heq with hc _
        exact absurd hc (by decide)
      · rw [← hY, parse_dumpMembers (k, v) ms f rest hfm]
        rfl
  termination_by v _ _ _ _ _ => sizeOf v

theorem parse_dumpElems : ∀ (x : Json) (xs : List Json) (fuel : Nat) (rest : List Char),
    jfuelE (x :: xs) < fuel →
    parseElemsRest fuel (dumpElems (x :: xs) ++ ']' :: rest) = some (x :: xs, rest)
  | x, [], fuel, rest, hfu => by
    cases fuel with
    | zero => exact absurd hfu (Nat.not_lt_zero _)
    | succ f =>
      have hfx : jfuel x < f := by
        simp only [jfuelE] at hfu
        omega
      have hx := parse_dumps x f (']' :: rest) hfx rfl rfl
      have harg : dumpElems [x] ++ ']' :: rest = dumps x ++ (']' :: rest) := by
        simp [dumpElems]
      rw [parseElemsRest_step, harg, hx]
      rfl
  | x, y :: ys, fuel, rest, hfu => by
    cases fuel with
    | zero => exact absurd hfu (Nat.not_lt_zero _)
    | succ f =>
      have hfx : jfuel x < f := by
        simp only [jfuelE] at hfu
        omega
      have hfy : jfuelE (y :: ys) < f := by
        simp only [jfuelE] at hfu ⊢
        omega
      have hx := parse_dumps x f (',' :: (dumpElems (y :: ys) ++ (']' :: rest))) hfx rfl rfl
      have harg : dumpElems (x :: y :: ys) ++ ']' :: rest
          = dumps x ++ (',' :: (dumpElems (y :: ys) ++ (']' :: rest))) := by
        simp [dumpElems]
      rw [parseElemsRest_step, harg, hx]
      show (match parseElemsRest f (skipWs (dumpElems (y :: ys) ++ (']' :: rest))) with
            | some (vs, r3) => some (x :: vs, r3)
            | none => none) = some (x :: y :: ys, rest)
      rw [show skipWs (dumpElems (y :: ys) ++ (']' :: rest))
            = dumpElems (y :: ys) ++ (']' :: rest) from by
          rw [dumpElems_eq, List.append_assoc]
          exact skipWs_dumps y _]
      rw [parse_dumpElems y ys f rest hfy]
  termination_by x xs _ _ _ => sizeOf x + sizeOf xs

theorem parse_dumpMembers : ∀ (kv : String × Json) (ms : List (String × Json)) (fuel : Nat)
    (rest : List Char), jfuelM (kv :: ms) < fuel →
    parseMembersRest fuel (dumpMembers (kv :: ms) ++ '}' :: rest) = some (kv :: ms, rest)
  | (k, v), [], fuel, rest, hfu => by
    cases fuel with
    | zero => exact absurd hfu (Nat.not_lt_zero _)
    | succ f =>
      have hfv : jfuel v < f := by
        simp only [jfuelM] at hfu
        omega
      have hv := parse_dumps v f ('}' :: rest) hfv rfl rfl
      have harg : dumpMembers [(k, v)] ++ '}' :: rest
          = '"' :: (escapeString k.data ++ ('"' :: (':' :: (dumps v ++ ('}' :: rest))))) := by
        simp [dumpMembers, dumpString]
      rw [parseMembersRest_step, harg]
      show (match parseStrBody (escapeString k.data ++ ('"' :: (':' :: (dumps v ++ ('}' :: rest))))) with
            | none => none
            | some (kcs, r1) =>
              match skipWs r1 with
              | ':' :: r2 =>
                match parseValue f (skipWs r2) with
                | none => none
                | some (v2, r3) =>
                  match skipWs r3 with
                  | ',' :: r4 =>
                    (match parseMembersRest f (skipWs r4) with
                     | some (ms2, r5) => some ((String.mk kcs, v2) :: ms2, r5)
                     | none => none)
                  | '}' :: r4 => some ([(String.mk kcs, v2)], r4)
                  | _ => none
              | _ => none) = some ([(k, v)], rest)
      rw [parseStrBody_escapeString]
      show (match parseValue f (skipWs (dumps v ++ ('}' :: rest))) with
            | none => none
            | some (v2, r3) =>
              match skipWs r3 with
              | ',' :: r4 =>
                (match parseMembersRest f (skipWs r4) with
                 | some (ms2, r5) => some ((String.mk k.data, v2) :: ms2, r5)
                 | none => none)
              | '}' :: r4 => some ([(String.mk k.data, v2)], r4)
              | _ => none) = some ([(k, v)], rest)
      rw [skipWs_dumps v ('}' :: rest), hv]
      rfl
  | (k, v), (k2, v2) :: ms, fuel, rest, hfu => by
    cases fuel with
    | zero => exact absurd hfu (Nat.not_lt_zero _)
    | succ f =>
      have hfv : jfuel v < f := by
        simp only [jfuelM] at hfu
        omega
      have hfm : jfuelM ((k2, v2) :: ms) < f := by
        simp only [jfuelM] at hfu ⊢
        omega
      have hv := parse_dumps v f
        (',' :: (dumpMembers ((k2, v2) :: ms) ++ ('}' :: rest))) hfv rfl rfl
      have harg : dumpMembers ((k, v) :: (k2, v2) :: ms) ++ '}' :: rest
          = '"' :: (escapeString k.data ++ ('"' :: (':' :: (dumps v
              ++ (',' :: (dumpMembers ((k2, v2) :: ms) ++ ('}' :: rest))))))) := by
        rw [dumpMembers_eq]
        show ('"' :: (escapeString k.data ++ ['"']) ++ (':' :: (dumps v
            ++ dumpMSep ((k2, v2) :: ms)))) ++ '}' :: rest = _
        simp [dumpMSep]
      rw [parseMembersRest_step, harg]
      show (match parseStrBody (escapeString k.data ++ ('"' :: (':' :: (dumps v
              ++ (',' :: (dumpMembers ((k2, v2) :: ms) ++ ('}' :: rest))))))) with
            | none => none
            | some (kcs, r1) =>
              match skipWs r1 with
              | ':' :: r2 =>
                match parseValue f (skipWs r2) with
                | none => none
                | some (w, r3) =>
                  match skipWs r3 with
                  | ',' :: r4 =>
                    (match parseMembersRest f (skipWs r4) with
                     | some (ms2, r5) => some ((String.mk kcs, w) :: ms2, r5)
                     | none => none)
                  | '}' :: r4 => some ([(String.mk kcs, w)], r4)
                  | _ => none
              | _ => none) = some ((k, v) :: (k2, v2) :: ms, rest)
      rw [parseStrBody_escapeString]
      show (match parseValue f (skipWs (dumps v
              ++ (',' :: (dumpMembers ((k2, v2) :: ms) ++ ('}' :: rest))))) with
            | none => none
            | some (w, r3) =>
              match skipWs r3 with
              | ',' :: r4 =>
                (match parseMembersRest f (skipWs r4) with
                 | some (ms2, r5) => some ((String.mk k.data, w) :: ms2, r5)
                 | none => none)
              | '}' :: r4 => some ([(String.mk k.data, w)], r4)
              | _ => none) = some ((k, v) :: (k2, v2) :: ms, rest)
      rw [skipWs_dumps v _, hv]
      show (match parseMembersRest f (skipWs (dumpMembers ((k2, v2) :: ms) ++ ('}' :: rest))) with
            | some (ms2, r5) => some ((String.mk k.data, v) :: ms2, r5)
            | none => none) = some ((k, v) :: (k2, v2) :: ms, rest)
      rw [show skipWs (dumpMembers ((k2, v2) :: ms) ++ ('}' :: rest))
            = dumpMembers ((k2, v2) :: ms) ++ ('}' :: rest) from by
          have hY2 : dumpMembers ((k2, v2) :: ms) ++ ('}' :: rest)
              = '"' :: ((escapeString k2.data ++ ['"'])
                  ++ ((':' :: (dumps v2 ++ dumpMSep ms)) ++ ('}' :: rest))) := by
            rw [dumpMembers_eq]
            simp [dumpString]
          rw [hY2, skipWs_not '"' (by decide)]]
      rw [parse_dumpMembers (k2, v2) ms f rest hfm]
  termination_by kv ms _ _ _ => sizeOf kv + sizeOf ms

end

mutual

/-- The parsing fuel a value needs is at most its serialized length. -/
theorem jfuel_le_dumps : ∀ v : Json, jfuel v ≤ (dumps v).length
  | .null => by simp [jfuel, dumps]
  | .b true => by simp [jfuel, dumps]
  | .b false => by simp [jfuel, dumps]
  | .i v => by
    have h := natToDec_ne_nil v.natAbs
    have hlen : 1 ≤ (natToDec v.natAbs).length := by
      cases he : natToDec v.natAbs with
      | nil => exact absurd he h
      | cons c t => simp
    simp only [jfuel, dumps, intToDec, List.length_append]
    omega
  | .s sv => by simp [jfuel, dumps, dumpString]
  | .arr [] => by simp [jfuel, jfuelE, dumps, dumpElems]
  | .arr (x :: xs) => by
    have h := jfuelE_le_dumpElems x xs
    simp only [jfuel, dumps, List.length_cons, List.length_append, List.length_singleton]
    omega
  | .obj [] => by simp [jfuel, jfuelM, dumps, dumpMembers]
  | .obj (kv :: ms) => by
    have h := jfuelM_le_dumpMembers kv ms
    simp only [jfuel, dumps, List.length_cons, List.length_append, List.length_singleton]
    omega
  termination_by v => sizeOf v

theorem jfuelE_le_dumpElems : ∀ (x : Json) (xs : List Json),
    jfuelE (x :: xs) ≤ (dumpElems (x :: xs)).length + 1
  | x, [] => by
    have h := jfuel_le_dumps x
    simp only [jfuelE, dumpElems]
    omega
  | x, y :: ys => by
    have h1 := jfuel_le_dumps x
    have h2 := jfuelE_le_dumpElems y ys
    simp only [jfuelE] at h2 ⊢
    simp only [dumpElems, List.length_append, List.length_cons]
    omega
  termination_by x xs => sizeOf x + sizeOf xs

theorem jfuelM_le_dumpMembers : ∀ (kv : String × Json) (ms : List (String × Json)),
    jfuelM (kv :: ms) ≤ (dumpMembers (kv :: ms)).length + 1
  | (k, v), [] => by
    have h := jfuel_le_dumps v
    simp only [jfuelM, dumpMembers, List.length_append, List.length_cons]
    omega
  | (k, v), (k2, v2) :: ms => by
    have h1 := jfuel_le_dumps v
    have h2 := jfuelM_le_dumpMembers (k2, v2) ms
    simp only [jfuelM] at h2 ⊢
    simp only [dumpMembers_eq, dumpMSep, List.length_append, List.length_cons]
    simp only [dumpMembers_eq, dumpMSep, List.length_append, List.length_cons] at h2
    omega
  termination_by kv ms => sizeOf kv + sizeOf ms

end

/-- The whole `json.loads` model inverts the serializer. -/
theorem loads_dumps (v : Json) : loads (dumps v) = some v := by
  have hskip : skipWs (dumps v) = dumps v := by
    have := skipWs_dumps v []
    simpa using this
  have hparse : parseValue ((dumps v).length + 1) (dumps v) = some (v, []) := by
    have h := parse_dumps v ((dumps v).length + 1) []
      (by have := jfuel_le_dumps v; omega) rfl rfl
    simpa using h
  rw [loads, hskip, hparse]
  rfl

/-! ## ASCII output and UTF-8 round-trip for the framing layer -/

theorem hexDigitLower_ascii (d : Nat) : (hexDigitLower d).toNat < 128 := by
  rw [hexDigitLower]
  have h : d % 16 < 16 := Nat.mod_lt _ (by omega)
  generalize hm : d % 16 = m at *
  interval_cases m <;> decide

theorem mem_u_escape (a : Nat) (c2 : Char) (h : c2 ∈ '\\' :: 'u' :: hex4 a) :
    c2.toNat < 128 := by
  simp only [hex4, List.mem_cons, List.not_mem_nil, or_false] at h
  rcases h with rfl | rfl | rfl | rfl | rfl | rfl <;>
    first | decide | exact hexDigitLower_ascii _

/-- Every character the `ensure_ascii` escaper emits is ASCII. -/
theorem escapeChar_ascii (c : Char) : ∀ c2 ∈ escapeChar c, c2.toNat < 128 := by
  intro c2 hc2
  rw [escapeChar] at hc2
  split_ifs at hc2 with h1 h2 h3 h4 h5 h6 h7 h8 h9
  · simp only [List.mem_cons, List.not_mem_nil, or_false] at hc2
    rcases hc2 with rfl | rfl <;> decide
  · simp only [List.mem_cons, List.not_mem_nil, or_false] at hc2
    rcases hc2 with rfl | rfl <;> decide
  · simp only [List.mem_singleton] at hc2
    subst hc2; omega
  · simp only [List.mem_cons, List.not_mem_nil, or_false] at hc2
    rcases hc2 with rfl | rfl <;> decide
  · simp only [List.mem_cons, List.not_mem_nil, or_false] at hc2
    rcases hc2 with rfl | rfl <;> decide
  · simp only [List.mem_cons, List.not_mem_nil, or_false] at hc2
    rcases hc2 with rfl | rfl <;> decide
  · simp only [List.mem_cons, List.not_mem_nil, or_false] at hc2
    rcases hc2 with rfl | rfl <;> decide
  · simp only [List.mem_cons, List.not_mem_nil, or_false] at hc2
    rcases hc2 with rfl | rfl <;> decide
  · exact mem_u_escape _ _ hc2
  · rcases List.mem_append.mp hc2 with h | h
    · exact mem_u_escape _ _ h
    · exact mem_u_escape _ _ h

theorem dumpString_ascii (k : String) : ∀ c2 ∈ dumpString k, c2.toNat < 128 := by
  intro c2 hc2
  simp only [dumpString, List.mem_cons, List.mem_append, List.mem_singleton,
    List.not_mem_nil, or_false] at hc2
  rcases hc2 with rfl | h | rfl
  · decide
  · obtain ⟨c0, _, hmem⟩ := List.mem_flatMap.mp h
    exact escapeChar_ascii c0 c2 hmem
  · decide

theorem intToDec_ascii (v : Int) : ∀ c2 ∈ intToDec v, c2.toNat < 128 := by
  intro c2 hc2
  rcases List.mem_append.mp hc2 with h | h
  · split at h
    · simp only [List.mem_singleton] at h; subst h; decide
    · simp at h
  · have := isDigitCh_range c2 (natToDec_digits v.natAbs c2 h)
    omega

mutual

/-- Everything `dumps` emits is ASCII (needed for the UTF-8 round-trip). -/
theorem dumps_ascii : ∀ (v : Json), ∀ c ∈ dumps v, c.toNat < 128
  | .null => by
    intro c hc
    simp only [dumps, List.mem_cons, List.not_mem_nil, or_false] at hc
    rcases hc with rfl | rfl | rfl | rfl <;> decide
  | .b true => by
    intro c hc
    simp only [dumps, List.mem_cons, List.not_mem_nil, or_false] at hc
    rcases hc with rfl | rfl | rfl | rfl <;> decide
  | .b false => by
    intro c hc
    simp only [dumps, List.mem_cons, List.not_mem_nil, or_false] at hc
    rcases hc with rfl | rfl | rfl | rfl | rfl <;> decide
  | .i v => fun c hc => intToDec_ascii v c hc
  | .s sv => fun c hc => dumpString_ascii sv c hc
  | .arr elems => by
    intro c hc
    simp only [dumps, List.mem_cons, List.mem_append, List.mem_singleton,
      List.not_mem_nil, or_false] at hc
    rcases hc with rfl | h | rfl
    · decide
    · exact dumpElems_ascii elems c h
    · decide
  | .obj members => by
    intro c hc
    simp only [dumps, List.mem_cons, List.mem_append, List.mem_singleton,
      List.not_mem_nil, or_false] at hc
    rcases hc with rfl | h | rfl
    · decide
    · exact dumpMembers_ascii members c h
    · decide
  termination_by v => sizeOf v

theorem dumpElems_ascii : ∀ (l : List Json), ∀ c ∈ dumpElems l, c.toNat < 128
  | [] => by intro c hc; simp [dumpElems] at hc
  | [x] => by
    intro c hc
    exact dumps_ascii x c (by simpa [dumpElems] using hc)
  | x :: y :: rest => by
    intro c hc
    simp only [dumpElems, List.mem_append, List.mem_cons] at hc
    rcases hc with h | rfl | h
    · exact dumps_ascii x c h
    · decide
    · exact dumpElems_ascii (y :: rest) c (by simpa [dumpElems] using h)
  termination_by l => sizeOf l

theorem dumpMembers_ascii : ∀ (l : List (String × Json)), ∀ c ∈ dumpMembers l, c.toNat < 128
  | [] => by intro c hc; simp [dumpMembers] at hc
  | [(k, v)] => by
    intro c hc
    simp only [dumpMembers, List.mem_append, List.mem_cons] at hc
    rcases hc with h | rfl | h
    · exact dumpString_ascii k c h
    · decide
    · exact dumps_ascii v c h
  | (k, v) :: (k2, v2) :: rest => by
    intro c hc
    rw [dumpMembers_eq] at hc
    rcases List.mem_append.mp hc with h | h
    · exact dumpString_ascii k c h
    · rcases List.mem_cons.mp h with rfl | h
      · decide
      · rcases List.mem_append.mp h with h | h
        · exact dumps_ascii v c h
        · rcases List.mem_cons.mp (by simpa [dumpMSep] using h) with rfl | h
          · decide
          · exact dumpMembers_ascii ((k2, v2) :: rest) c h
  termination_by l => sizeOf l

end

theorem utf8EncodeChar_of_ascii (c : Char) (h : c.toNat < 128) :
    utf8EncodeChar c = [c.toNat] := by
  rw [utf8EncodeChar]
  simp [h]

/-- On ASCII text, UTF-8 encoding is just `Char.toNat` pointwise. -/
theorem strBytes_ascii (cs : List Char) (h : ∀ c ∈ cs, c.toNat < 128) :
    strBytes cs = cs.map Char.toNat := by
  induction cs with
  | nil => rfl
  | cons c rest ih =>
    have hc := h c (List.mem_cons_self c rest)
    have hrest : ∀ c2 ∈ rest, c2.toNat < 128 := fun c2 hc2 => h c2 (List.mem_cons_of_mem c hc2)
    simp only [strBytes, List.flatMap_cons, List.map_cons, utf8EncodeChar_of_ascii c hc]
    rw [show rest.flatMap utf8EncodeChar = strBytes rest from rfl, ih hrest]
    rfl

theorem utf8DecodeAux_ascii_step (fuel b : Nat) (bs : List Nat) (h : b < 128) :
    utf8DecodeAux (fuel + 1) (b :: bs) = (utf8DecodeAux fuel bs).map (Char.ofNat b :: ·) := by
  simp only [utf8DecodeAux, if_pos h]

/-- Strict UTF-8 decoding inverts pointwise `Char.toNat` on ASCII text. -/
theorem utf8Decode_map_ascii (cs : List Char) (h : ∀ c ∈ cs, c.toNat < 128) :
    utf8DecodeBytes (cs.map Char.toNat) = some cs := by
  induction cs with
  | nil => rfl
  | cons c rest ih =>
    have hc := h c (List.mem_cons_self c rest)
    have hrest : ∀ c2 ∈ rest, c2.toNat < 128 := fun c2 hc2 => h c2 (List.mem_cons_of_mem c hc2)
    rw [utf8DecodeBytes] at ih ⊢
    rw [List.map_cons, List.length_cons, utf8DecodeAux_ascii_step _ c.toNat _ hc,
      List.length_map] at *
    rw [ih hrest]
    simp [Char.ofNat_toNat]

theorem utf8_roundtrip_ascii (cs : List Char) (h : ∀ c ∈ cs, c.toNat < 128) :
    utf8DecodeBytes (strBytes cs) = some cs := by
  rw [strBytes_ascii cs h]
  exact utf8Decode_map_ascii cs h

/-! ## Evaluating `parse_content_length` on the header `encode_message` writes -/

theorem splitCRLF_no_cr : ∀ (cs : List Char), (∀ c ∈ cs, c ≠ Char.ofNat 13) →
    splitCRLF cs = [cs]
  | [], _ => rfl
  | [_], _ => rfl
  | c1 :: c2 :: rest, h => by
    have h1 : c1 ≠ Char.ofNat 13 := h c1 (List.mem_cons_self _ _)
    have hrec := splitCRLF_no_cr (c2 :: rest) (fun c hc => h c (List.mem_cons_of_mem _ hc))
    rw [splitCRLF, if_neg (fun hand => h1 hand.1), hrec]

theorem dropWhile_all_false (p : Char → Bool) :
    ∀ (l : List Char), (∀ c ∈ l, p c = false) → l.dropWhile p = l
  | [], _ => rfl
  | c :: rest, h => by
    rw [List.dropWhile_cons, if_neg]
    simp [h c (List.mem_cons_self c rest)]

theorem pyStrip_all (l : List Char) (h : ∀ c ∈ l, isPySpace c = false) : pyStrip l = l := by
  rw [pyStrip, dropWhile_all_false _ l h,
    dropWhile_all_false _ l.reverse (fun c hc => h c (List.mem_reverse.mp hc)),
    List.reverse_reverse]

theorem digit_not_pyspace (c : Char) (h : isDigitCh c = true) : isPySpace c = false := by
  obtain ⟨h1, h2⟩ := isDigitCh_range c h
  simp only [isPySpace, Bool.or_eq_false_iff, Bool.and_eq_false_iff,
    decide_eq_false_iff_not, Nat.not_le, Nat.not_lt]
  omega

theorem pyStrip_cons_space (ds : List Char) : pyStrip (' ' :: ds) = pyStrip ds := by
  rw [pyStrip, pyStrip, List.dropWhile_cons, if_pos (by decide)]

theorem pyDigitsUAux_digits :
    ∀ (ds : List Char) (acc : Nat), (∀ c ∈ ds, isDigitCh c = true) →
      pyDigitsUAux acc ds = some (ds.foldl (fun a c => a * 10 + digitVal c) acc)
  | [], acc, _ => rfl
  | c :: rest, acc, h => by
    have hc := h c (List.mem_cons_self c rest)
    have hu : c ≠ '_' := by
      intro he
      rw [he] at hc
      simp [isDigitCh] at hc
    rw [pyDigitsUAux.eq_def]
    simp only [if_neg hu, if_pos hc]
    rw [pyDigitsUAux_digits rest _ (fun c2 hc2 => h c2 (List.mem_cons_of_mem c hc2))]
    rfl

/-- Python's underscore-tolerant digit reader inverts decimal printing. -/
theorem pyDigitsU_natToDec (n : Nat) : pyDigitsU (natToDec n) = some n := by
  cases he : natToDec n with
  | nil => exact absurd he (natToDec_ne_nil n)
  | cons c t =>
    have hall : ∀ c2 ∈ natToDec n, isDigitCh c2 = true := natToDec_digits n
    rw [he] at hall
    have hc := hall c (List.mem_cons_self c t)
    rw [pyDigitsU, if_pos hc,
      pyDigitsUAux_digits t _ (fun c2 hc2 => hall c2 (List.mem_cons_of_mem c hc2))]
    have hfold : t.foldl (fun a c => a * 10 + digitVal c) (digitVal c) = decValue (c :: t) := by
      simp [decValue]
    rw [hfold, ← he, decValue_natToDec]

/-- `int(str)` inverts decimal printing of a natural number. -/
theorem pyIntOfStr_natToDec (n : Nat) : pyIntOfStr (natToDec n) = some (Int.ofNat n) := by
  have hall : ∀ c2 ∈ natToDec n, isDigitCh c2 = true := natToDec_digits n
  have hstrip : pyStrip (natToDec n) = natToDec n :=
    pyStrip_all _ (fun c hc => digit_not_pyspace c (hall c hc))
  cases he : natToDec n with
  | nil => exact absurd he (natToDec_ne_nil n)
  | cons c t =>
    rw [he] at hstrip hall
    have hc := hall c (List.mem_cons_self c t)
    obtain ⟨h1, h2⟩ := isDigitCh_range c hc
    have hplus : c ≠ '+' := by intro hce; rw [hce] at h1; revert h1; decide
    have hminus : c ≠ '-' := by intro hce; rw [hce] at h1; revert h1; decide
    rw [pyIntOfStr, hstrip]
    simp only [if_neg hplus, if_neg hminus]
    rw [← he, pyDigitsU_natToDec]
    rfl

theorem leadEq_append (ys : List Char) : ∀ (pat xs : List Char),
    leadEq pat xs = true → leadEq pat (xs ++ ys) = true
  | [], _, _ => rfl
  | a :: as, [], h => by simp [leadEq] at h
  | a :: as, b :: bs, h => by
    rw [leadEq] at h
    by_cases hab : a = b
    · rw [if_pos hab] at h
      rw [List.cons_append, leadEq, if_pos hab]
      exact leadEq_append ys as bs h
    · rw [if_neg hab] at h
      exact absurd h (by simp)

/-- The header line `encode_message` writes satisfies the scan's test. -/
theorem isCLLine_headerChars (n : Nat) : isCLLine (headerChars n) = true := by
  rw [isCLLine, headerChars, List.map_append]
  exact leadEq_append _ _ _ (by decide)

theorem afterFirstColon_headerChars (n : Nat) :
    afterFirstColon (headerChars n) = ' ' :: natToDec n := rfl

theorem headerChars_ascii (n : Nat) : ∀ c ∈ headerChars n, c.toNat < 128 := by
  have hlit : ∀ c2 ∈ "Content-Length: ".data, c2.toNat < 128 := by decide
  intro c hc
  rcases List.mem_append.mp hc with h | h
  · exact hlit c h
  · have := isDigitCh_range c (natToDec_digits n c h)
    omega

theorem headerChars_no_cr (n : Nat) : ∀ c ∈ headerChars n, c ≠ Char.ofNat 13 := by
  have hlit : ∀ c2 ∈ "Content-Length: ".data, c2 ≠ Char.ofNat 13 := by decide
  intro c hc
  rcases List.mem_append.mp hc with h | h
  · exact hlit c h
  · have := isDigitCh_range c (natToDec_digits n c h)
    intro he
    rw [he] at this
    revert this; decide

/-- `parse_content_length` recovers the length from the exact header bytes
`encode_message` writes. -/
theorem parse_content_length_headerChars (n : Nat) :
    parse_content_length (strBytes (headerChars n)) = some (Int.ofNat n) := by
  have hstrip : pyStrip (natToDec n) = natToDec n :=
    pyStrip_all _ (fun c hc => digit_not_pyspace c (natToDec_digits n c hc))
  simp only [parse_content_length, utf8_roundtrip_ascii _ (headerChars_ascii n),
    splitCRLF_no_cr _ (headerChars_no_cr n),
    List.find?_cons_of_pos _ (isCLLine_headerChars n),
    afterFirstColon_headerChars, pyStrip_cons_space, hstrip, pyIntOfStr_natToDec]

/-- `decode_message` inverts the body serialization of `encode_message`. -/
theorem decode_message_dumps (m : List (String × Json)) :
    decode_message (strBytes (dumps (.obj m))) = some m := by
  simp only [decode_message, utf8_roundtrip_ascii _ (dumps_ascii (.obj m)), loads_dumps]

/-- The bytes `encode_message` writes, split into header, separator and
body. -/
theorem encode_message_eq (m : List (String × Json)) :
    encode_message m
      = strBytes (headerChars (strBytes (dumps (.obj m))).length)
        ++ (headerSeparator ++ strBytes (dumps (.obj m))) := by
  rw [encode_message, headerChars]
  show strBytes (("Content-Length: ".data ++ natToDec (strBytes (dumps (.obj m))).length)
      ++ [Char.ofNat 13, Char.ofNat 10, Char.ofNat 13, Char.ofNat 10])
      ++ strBytes (dumps (.obj m)) = _
  rw [strBytes, List.flatMap_append]
  rw [show ([Char.ofNat 13, Char.ofNat 10, Char.ofNat 13, Char.ofNat 10].flatMap utf8EncodeChar)
      = headerSeparator from rfl]
  rw [List.append_assoc]
  rfl

theorem strBytes_headerChars_no13 (n : Nat) :
    ∀ b ∈ strBytes (headerChars n), b ≠ 13 := by
  intro b hb
  rw [strBytes_ascii _ (headerChars_ascii n)] at hb
  obtain ⟨c, hc, hcb⟩ := List.mem_map.mp hb
  intro h13
  have hcr : c = Char.ofNat 13 := by
    have : c = Char.ofNat c.toNat := (Char.ofNat_toNat c).symm
    rw [this, hcb, h13]
  exact headerChars_no_cr n c hc hcr

/-! ## The transport read loop on framed input -/

theorem leadEq_sep_not13 (b : Nat) (l : List Nat) (hb : b ≠ 13) :
    leadEq headerSeparator (b :: l) = false := by
  rw [headerSeparator, leadEq, if_neg (fun he => hb he.symm)]

/-- On a buffer that contains the full separator right after `13`-free
bytes, `bytes.index` finds it exactly there. -/
theorem findSeq_sep : ∀ (H : List Nat), (∀ b ∈ H, b ≠ 13) → ∀ (t : List Nat),
    findSeq headerSeparator (H ++ (headerSeparator ++ t)) = some H.length
  | [], _, t => rfl
  | b :: H2, h, t => by
    have hb : b ≠ 13 := h b (List.mem_cons_self _ _)
    have hrec := findSeq_sep H2 (fun b2 hb2 => h b2 (List.mem_cons_of_mem _ hb2)) t
    rw [List.cons_append, findSeq, leadEq_sep_not13 b _ hb]
    rw [if_neg (by simp), hrec]
    rfl

/-- On a buffer that stops short of the full separator, the scan fails. -/
theorem findSeq_short : ∀ (H2 : List Nat), (∀ b ∈ H2, b ≠ 13) → ∀ (k : Nat), k < 4 →
    findSeq headerSeparator (H2 ++ headerSeparator.take k) = none
  | [], _, k, hk => by
    interval_cases k <;> rfl
  | b :: H2, h, k, hk => by
    have hb : b ≠ 13 := h b (List.mem_cons_self _ _)
    have hrec := findSeq_short H2 (fun b2 hb2 => h b2 (List.mem_cons_of_mem _ hb2)) k hk
    rw [List.cons_append, findSeq, leadEq_sep_not13 b _ hb]
    rw [if_neg (by simp), hrec]
    rfl

theorem read_until_separator_found (buffer : List Nat) (chunks : List (List Nat)) (i : Nat)
    (hfind : findSeq headerSeparator buffer = some i) :
    read_until_separator buffer chunks
      = some (buffer.take i, buffer.drop (i + headerSeparator.length), chunks) := by
  rw [read_until_separator.eq_def, hfind]

theorem read_until_separator_pull (buffer c : List Nat) (cs : List (List Nat))
    (hfind : findSeq headerSeparator buffer = none) :
    read_until_separator buffer (c :: cs)
      = if c = [] then none else read_until_separator (buffer ++ c) cs := by
  rw [read_until_separator.eq_def, hfind]

/-- `_read_until_separator` on a stream whose bytes form a `13`-free
header, the separator, and a remainder: it returns exactly the header and
retains every byte past the separator. -/
theorem read_until_spec : ∀ (chunks : List (List Nat)) (buffer H rest : List Nat),
    (∀ b ∈ H, b ≠ 13) →
    buffer ++ chunks.flatten = H ++ (headerSeparator ++ rest) →
    (∀ c ∈ chunks, c ≠ []) →
    ∃ buf2 ch2, read_until_separator buffer chunks = some (H, buf2, ch2)
      ∧ buf2 ++ ch2.flatten = rest ∧ ∀ c ∈ ch2, c ≠ []
  | chunks, buffer, H, rest, hH, heq, hne => by
    have hsl : (H ++ headerSeparator).length = H.length + 4 := by
      simp [headerSeparator]
    by_cases hcov : H.length + 4 ≤ buffer.length
    · -- the buffer already contains the separator
      have htake : buffer.take (H.length + 4) = H ++ headerSeparator := by
        have h1 : (H ++ (headerSeparator ++ rest)).take (H.length + 4) = H ++ headerSeparator := by
          rw [← List.append_assoc, ← hsl, List.take_left]
        rw [← heq, List.take_append_of_le_length hcov] at h1
        exact h1
      have hdrop : buffer.drop (H.length + 4) ++ chunks.flatten = rest := by
        have h1 : (H ++ (headerSeparator ++ rest)).drop (H.length + 4) = rest := by
          rw [← List.append_assoc, ← hsl, List.drop_left]
        rw [← heq, List.drop_append_of_le_length hcov] at h1
        exact h1
      have hbuf : buffer = H ++ (headerSeparator ++ buffer.drop (H.length + 4)) := by
        conv_lhs => rw [← List.take_append_drop (H.length + 4) buffer]
        rw [htake, List.append_assoc]
      have hfind : findSeq headerSeparator buffer = some H.length := by
        rw [hbuf]
        exact findSeq_sep H hH _
      have htakeH : buffer.take H.length = H := by
        conv_lhs => rw [hbuf]
        exact List.take_left H _
      refine ⟨buffer.drop (H.length + 4), chunks, ?_, hdrop, hne⟩
      rw [read_until_separator_found buffer chunks H.length hfind, htakeH]
      rfl
    · -- the buffer stops short of the separator: the scan fails and the
      -- loop pulls another chunk
      push_neg at hcov
      have hfind : findSeq headerSeparator buffer = none := by
        by_cases hble : buffer.length ≤ H.length
        · have hbtake : buffer = H.take buffer.length := by
            have h1 : (buffer ++ chunks.flatten).take buffer.length = buffer := by
              rw [List.take_append_of_le_length (le_refl _), List.take_length]
            rw [heq, List.take_append_of_le_length hble] at h1
            exact h1.symm
          have hb13 : ∀ b ∈ buffer, b ≠ 13 := by
            intro b hb
            rw [hbtake] at hb
            exact hH b (List.take_subset _ _ hb)
          have := findSeq_short buffer hb13 0 (by omega)
          simpa using this
        · push_neg at hble
          have htakeH : buffer.take H.length = H := by
            have h1 : (buffer ++ chunks.flatten).take H.length = buffer.take H.length :=
              List.take_append_of_le_length (by omega)
            rw [heq, List.take_append_of_le_length (le_refl _), List.take_length] at h1
            exact h1.symm
          have hS : buffer.drop H.length ++ chunks.flatten = headerSeparator ++ rest := by
            have h1 : (buffer ++ chunks.flatten).drop H.length
                = buffer.drop H.length ++ chunks.flatten :=
              List.drop_append_of_le_length (by omega)
            rw [heq, List.drop_left] at h1
            exact h1.symm
          have hSlen : (buffer.drop H.length).length = buffer.length - H.length := by
            simp
          have hSlt : (buffer.drop H.length).length < 4 := by omega
          have hStake : buffer.drop H.length
              = headerSeparator.take (buffer.drop H.length).length := by
            have h1 : (buffer.drop H.length ++ chunks.flatten).take (buffer.drop H.length).length
                = buffer.drop H.length := by
              rw [List.take_append_of_le_length (le_refl _), List.take_length]
            rw [hS, List.take_append_of_le_length
              (by rw [show headerSeparator.length = 4 from rfl]; omega)] at h1
            exact h1.symm
          have hStake2 : buffer.drop H.length = headerSeparator.take (buffer.length - H.length) := by
            rw [hStake, hSlen]
          have hbuf : buffer = H ++ headerSeparator.take (buffer.length - H.length) := by
            conv_lhs => rw [← List.take_append_drop H.length buffer]
            rw [htakeH, hStake2]
          rw [hbuf]
          exact findSeq_short H hH _ (by omega)
      match chunks, hne with
      | [], _ =>
        rw [List.flatten_nil, List.append_nil] at heq
        have : buffer.length = H.length + 4 + rest.length := by
          rw [heq]
          simp [headerSeparator]
          omega
        omega
      | c :: cs, hne =>
        have hc : c ≠ [] := hne c (List.mem_cons_self _ _)
        have hrec := read_until_spec cs (buffer ++ c) H rest hH
          (by rw [List.append_assoc, ← List.flatten_cons]; exact heq)
          (fun c2 hc2 => hne c2 (List.mem_cons_of_mem _ hc2))
        obtain ⟨buf2, ch2, h1, h2, h3⟩ := hrec
        refine ⟨buf2, ch2, ?_, h2, h3⟩
        rw [read_until_separator_pull buffer c cs hfind, if_neg hc]
        exact h1

/-- `_read_exactly` on a stream holding the body and a remainder: it
returns exactly the body and retains every byte past it. -/
theorem read_exactly_spec : ∀ (chunks : List (List Nat)) (buffer B rest : List Nat),
    buffer ++ chunks.flatten = B ++ rest →
    (∀ c ∈ chunks, c ≠ []) →
    ∃ buf2 ch2, read_exactly B.length buffer chunks = some (B, buf2, ch2)
      ∧ buf2 ++ ch2.flatten = rest ∧ ∀ c ∈ ch2, c ≠ []
  | chunks, buffer, B, rest, heq, hne => by
    by_cases hle : B.length ≤ buffer.length
    · have htake : buffer.take B.length = B := by
        have h1 : (buffer ++ chunks.flatten).take B.length = buffer.take B.length :=
          List.take_append_of_le_length hle
        rw [heq, List.take_append_of_le_length (le_refl _), List.take_length] at h1
        exact h1.symm
      have hdrop : buffer.drop B.length ++ chunks.flatten = rest := by
        have h1 : (buffer ++ chunks.flatten).drop B.length
            = buffer.drop B.length ++ chunks.flatten :=
          List.drop_append_of_le_length hle
        rw [heq, List.drop_left] at h1
        exact h1.symm
      refine ⟨buffer.drop B.length, chunks, ?_, hdrop, hne⟩
      rw [read_exactly.eq_def, if_pos hle, htake]
    · push_neg at hle
      match chunks, hne with
      | [], _ =>
        rw [List.flatten_nil, List.append_nil] at heq
        have : buffer.length = B.length + rest.length := by
          rw [heq]
          simp
        omega
      | c :: cs, hne =>
        have hc : c ≠ [] := hne c (List.mem_cons_self _ _)
        have hrec := read_exactly_spec cs (buffer ++ c) B rest
          (by rw [List.append_assoc, ← List.flatten_cons]; exact heq)
          (fun c2 hc2 => hne c2 (List.mem_cons_of_mem _ hc2))
        obtain ⟨buf2, ch2, h1, h2, h3⟩ := hrec
        refine ⟨buf2, ch2, ?_, h2, h3⟩
        rw [read_exactly.eq_def, if_neg (by omega)]
        simp only [if_neg hc]
        exact h1

/-- A transport `receive` on a stream carrying one encoded message and a
remainder returns that message and retains exactly the remainder. -/
theorem transportReceive_encoded (m : List (String × Json)) (R buffer : List Nat)
    (chunks : List (List Nat))
    (heq : buffer ++ chunks.flatten = encode_message m ++ R)
    (hne : ∀ c ∈ chunks, c ≠ []) :
    ∃ buf2 ch2, transportReceive buffer chunks = some (m, buf2, ch2)
      ∧ buf2 ++ ch2.flatten = R ∧ ∀ c ∈ ch2, c ≠ [] := by
  have heq2 : buffer ++ chunks.flatten
      = strBytes (headerChars (strBytes (dumps (.obj m))).length)
        ++ (headerSeparator ++ (strBytes (dumps (.obj m)) ++ R)) := by
    rw [heq, encode_message_eq m]
    simp [List.append_assoc]
  obtain ⟨buf1, ch1, hr1, hb1, hn1⟩ :=
    read_until_spec chunks buffer _ _ (strBytes_headerChars_no13 _) heq2 hne
  obtain ⟨buf2, ch2, hr2, hb2, hn2⟩ :=
    read_exactly_spec ch1 buf1 (strBytes (dumps (.obj m))) R hb1 hn1
  refine ⟨buf2, ch2, ?_, hb2, hn2⟩
  have htn : (Int.ofNat (strBytes (dumps (.obj m))).length).toNat
      = (strBytes (dumps (.obj m))).length := rfl
  simp only [transportReceive, hr1, parse_content_length_headerChars, htn,
    hr2, decode_message_dumps]
  rfl

theorem flatten_nil_of_nonempty (ch : List (List Nat)) (hne : ∀ c ∈ ch, c ≠ [])
    (hfl : ch.flatten = []) : ch = [] := by
  cases ch with
  | nil => rfl
  | cons c cs =>
    rw [List.flatten_cons] at hfl
    obtain ⟨hc, _⟩ := List.append_eq_nil.mp hfl
    exact absurd hc (hne c (List.mem_cons_self _ _))

/-- C4: Framing round-trip law: for every JSON-object message, the encoded
bytes split into the `Content-Length` header, the separator, and the UTF-8
compact-JSON body; `decode_message` recovers the message from the body
bytes, and the emitted header value parses back to exactly the body's byte
length. -/
theorem framing_roundtrip_law (m : List (String × Json)) :
    encode_message m
      = strBytes (headerChars (strBytes (dumps (.obj m))).length)
        ++ (headerSeparator ++ strBytes (dumps (.obj m)))
    ∧ decode_message (strBytes (dumps (.obj m))) = some m
    ∧ parse_content_length (strBytes (headerChars (strBytes (dumps (.obj m))).length))
        = some (Int.ofNat (strBytes (dumps (.obj m))).length) :=
  ⟨encode_message_eq m, decode_message_dumps m, parse_content_length_headerChars _⟩

/-- C3: Buffer straddle: for every pair of messages and every split of
their concatenated encodings into nonempty stream chunks, two consecutive
`receive` calls starting from an empty read buffer return exactly the
first message then the second, ending with an empty buffer and an
exhausted stream — no bytes and no message are lost. -/
theorem buffer_straddle_two_receives (m1 m2 : List (String × Json))
    (chunks : List (List Nat))
    (hjoin : chunks.flatten = encode_message m1 ++ encode_message m2)
    (hne : ∀ c ∈ chunks, c ≠ []) :
    ∃ buf1 ch1, transportReceive [] chunks = some (m1, buf1, ch1)
      ∧ transportReceive buf1 ch1 = some (m2, [], []) := by
  obtain ⟨buf1, ch1, h1, hb1, hn1⟩ := transportReceive_encoded m1 (encode_message m2) [] chunks
    (by simpa using hjoin) hne
  obtain ⟨buf2, ch2, h2, hb2, hn2⟩ := transportReceive_encoded m2 [] buf1 ch1
    (by rw [hb1, List.append_nil]) hn1
  obtain ⟨hbuf2, hfl2⟩ := List.append_eq_nil.mp hb2
  have hch2 := flatten_nil_of_nonempty ch2 hn2 hfl2
  rw [hbuf2, hch2] at h2
  exact ⟨buf1, ch1, h1, h2⟩

theorem buffer_straddle_two_receives_witness :
    (((encode_message [] ++ encode_message [("a", Json.i 0)]).take 20)
        :: [((encode_message [] ++ encode_message [("a", Json.i 0)]).drop 20)]).flatten
      = encode_message [] ++ encode_message [("a", Json.i 0)]
    ∧ (∀ c ∈ (((encode_message [] ++ encode_message [("a", Json.i 0)]).take 20)
        :: [((encode_message [] ++ encode_message [("a", Json.i 0)]).drop 20)]), c ≠ [])
    ∧ (∃ buf1 ch1,
        transportReceive []
            (((encode_message [] ++ encode_message [("a", Json.i 0)]).take 20)
              :: [((encode_message [] ++ encode_message [("a", Json.i 0)]).drop 20)])
          = some ([], buf1, ch1)
        ∧ transportReceive buf1 ch1 = some ([("a", Json.i 0)], [], [])) :=
  ⟨by decide, by decide,
    buffer_straddle_two_receives [] [("a", Json.i 0)] _ (by decide) (by decide)⟩
